import Mathlib

/-!
Shallow embedding of the tree-structure API: the node table from
models/TreeNode.js together with the six route handlers of
routes/treeRoutes.js (get, insert, update, delete-subtree, move, reorder)
and the bootstrap root of app.js, modelled over a list-of-rows store.
Stateful route handlers become pure functions from a store to a new store
or an error; the recursive descendant deletion and the upward ancestor
walk of the cycle check take an explicit fuel argument since the source
recursions terminate only on well-formed trees.
-/

/-- Row of the tree_nodes table (models/TreeNode.js): integer primary key,
non-null title, nullable parent reference, integer ordering. -/
structure Node where
  id : Nat
  title : String
  parent_node_id : Option Nat
  ordering : Int
deriving DecidableEq

abbrev Store := List Node

/-- Error outcomes of the route handlers, following the taxonomy the spec
gives for the HTTP statuses the routes return; Internal stands for a
crash or unbounded recursion in the source (HTTP 500). -/
inductive Err where
  | NotFound
  | InvalidParent
  | Forbidden
  | Cycle
  | InvalidOrdering
  | Internal
deriving DecidableEq

/-- TreeNode.findByPk: first row whose primary key equals the argument. -/
def findByPk (s : Store) (i : Nat) : Option Node :=
  s.find? (fun m => m.id == i)

/-- TreeNode.findAll with a where clause on parent_node_id (used for child
lists and sibling lists in the routes). -/
def childrenOf (s : Store) (op : Option Nat) : List Node :=
  s.filter (fun m => m.parent_node_id == op)

/-- Comparison used by the order clause of the routes: ascending ordering. -/
def ordLE (a b : Node) : Prop := a.ordering ≤ b.ordering

instance : DecidableRel ordLE :=
  fun a b => inferInstanceAs (Decidable (a.ordering ≤ b.ordering))

instance : IsTotal Node ordLE := ⟨fun a b => Int.le_total a.ordering b.ordering⟩

instance : IsTrans Node ordLE := ⟨fun _ _ _ hab hbc => le_trans hab hbc⟩

/-- Result of the query order clause ordering ASC. On the lists the claims
concern, sibling orderings are pairwise distinct, so any sorting
algorithm yields the unique ascending arrangement the database returns. -/
def sortByOrdering (l : List Node) : List Node := List.insertionSort ordLE l

/-- GET /nodes/:id of routes/treeRoutes.js: the node plus its immediate
children ordered ascending by ordering. -/
def getNode (s : Store) (i : Nat) : Except Err (Node × List Node) :=
  match findByPk s i with
  | none => .error .NotFound
  | some n => .ok (n, sortByOrdering (childrenOf s (some i)))

/-- Sequelize autoincrement primary key: one more than the largest id in
the table (SQLite assigns max rowid plus one). -/
def freshId (s : Store) : Nat := s.foldr (fun m acc => max m.id acc) 0 + 1

/-- POST /nodes of routes/treeRoutes.js: validate the parent, count the
existing children, append the new row with ordering equal to that count. -/
def insertNode (s : Store) (pid : Nat) (t : String) : Except Err (Store × Node) :=
  match findByPk s pid with
  | none => .error .InvalidParent
  | some _ =>
    let cnt := (childrenOf s (some pid)).length
    let n : Node := ⟨freshId s, t, some pid, (cnt : Int)⟩
    .ok (s ++ [n], n)

/-- UPDATE of a single row located by primary key (node.save() after an
in-place field mutation): every row with the matching id is rewritten. -/
def updateById (s : Store) (i : Nat) (g : Node → Node) : Store :=
  s.map (fun m => if m.id = i then g m else m)

/-- Field mutation performed by PUT /nodes/:id before node.save(). -/
def retitle (t : String) (m : Node) : Node := { m with title := t }

/-- PUT /nodes/:id of routes/treeRoutes.js: replace the title in place. -/
def updateNode (s : Store) (i : Nat) (t : String) : Except Err Store :=
  match findByPk s i with
  | none => .error .NotFound
  | some _ => .ok (updateById s i (retitle t))

/-- Sequential monadic loop of deleteNodeAndDescendants over the child
list, with the recursive call abstracted as a parameter. -/
def delFold (rec : Store → Nat → Option Store) : List Node → Store → Option Store
  | [], acc => some acc
  | c :: cs, acc =>
    match rec acc c.id with
    | none => none
    | some acc2 => delFold rec cs acc2

/-- deleteNodeAndDescendants of routes/treeRoutes.js: find the children of
the id, recursively delete each, then destroy the rows with that id.
Fuel bounds the recursion depth; none models non-termination. -/
def deleteRec : Nat → Store → Nat → Option Store
  | 0, _, _ => none
  | f + 1, s, i =>
    match delFold (fun acc j => deleteRec f acc j) (childrenOf s (some i)) s with
    | none => none
    | some s2 => some (s2.filter (fun m => !(m.id == i)))

/-- DELETE /nodes/:id of routes/treeRoutes.js: refuse the root (id 1),
otherwise run the recursive subtree deletion. No existence check occurs. -/
def deleteNode (fuel : Nat) (s : Store) (i : Nat) : Except Err Store :=
  if i = 1 then .error .Forbidden
  else
    match deleteRec fuel s i with
    | none => .error .Internal
    | some s2 => .ok s2

/-- isDescendant of routes/treeRoutes.js (cycle check of the move route):
walk upward from a parent pointer looking for childId. Returns none when
a lookup crashes on a missing row or the fuel runs out. -/
def isDescendant (s : Store) : Nat → Option Nat → Nat → Option Bool
  | _, none, _ => some false
  | 0, some p, c =>
    if p = c then some true
    else
      match findByPk s p with
      | none => none
      | some _ => none
  | f + 1, some p, c =>
    if p = c then some true
    else
      match findByPk s p with
      | none => none
      | some m => isDescendant s f m.parent_node_id c

/-- Field mutations performed by PUT /nodes/:id/move before node.save(). -/
def moveUpd (p : Nat) (k : Int) (m : Node) : Node :=
  { m with parent_node_id := some p, ordering := k }

/-- PUT /nodes/:id/move of routes/treeRoutes.js: require both rows, refuse
the root, refuse a cycle, then set the parent and set ordering to the
child count of the new parent as currently stored (the moved row is
still recorded under its old parent when the count query runs). -/
def moveNode (fuel : Nat) (s : Store) (i : Nat) (newPid : Nat) : Except Err Store :=
  match findByPk s i, findByPk s newPid with
  | some _, some _ =>
    if i = 1 then .error .Forbidden
    else
      match isDescendant s fuel (some newPid) i with
      | none => .error .Internal
      | some true => .error .Cycle
      | some false =>
        let cnt := (childrenOf s (some newPid)).length
        .ok (updateById s i (moveUpd newPid (cnt : Int)))
  | _, _ => .error .NotFound

/-- Start index of a JavaScript Array.prototype.splice call: a negative
start counts back from the end, clamped at zero. -/
def jsSpliceStart (len : Nat) (i : Int) : Nat :=
  if i < 0 then ((len : Int) + i).toNat else i.toNat

/-- Insertion step of splice(start, 0, node): past-the-end start indices
append at the end, as in JavaScript. -/
def insertAt : Nat → Node → List Node → List Node
  | 0, a, l => a :: l
  | _ + 1, a, [] => [a]
  | k + 1, a, b :: l => b :: insertAt k a l

/-- Update loop at the end of the reorder route: for each index of the
rearranged sibling list, write that index into the ordering of the rows
carrying the id found at that index. -/
def applyOrderingsFrom : Store → Int → List Node → Store
  | s, _, [] => s
  | s, k, c :: cs =>
    applyOrderingsFrom
      (s.map (fun m => if m.id = c.id then { m with ordering := k } else m))
      (k + 1) cs

/-- Body of the reorder route once the node has been found: fetch the
sibling list ordered ascending, bounds-check the requested position,
splice the node out at index node.ordering, splice it back in at the new
position, then rewrite every ordering to its index in the rearranged
list. -/
def reorderCore (s : Store) (node : Node) (newOrd : Int) : Except Err Store :=
  let siblings := sortByOrdering (childrenOf s node.parent_node_id)
  if newOrd < 0 ∨ ((siblings.length : Int) ≤ newOrd) then .error .InvalidOrdering
  else
    let l1 := siblings.eraseIdx (jsSpliceStart siblings.length node.ordering)
    let l2 := insertAt (jsSpliceStart l1.length newOrd) node l1
    .ok (applyOrderingsFrom s 0 l2)

/-- PUT /nodes/:id/reorder of routes/treeRoutes.js. -/
def reorderNode (s : Store) (i : Nat) (newOrd : Int) : Except Err Store :=
  match findByPk s i with
  | none => .error .NotFound
  | some node => reorderCore s node newOrd

/-- Upward ancestor id chain from a parent pointer, cut off by fuel: the
ids visited by the walk the cycle check performs, and the ancestor set
the spec describes for subtree membership. -/
def chainFrom (s : Store) : Nat → Option Nat → List Nat
  | _, none => []
  | 0, some p => [p]
  | f + 1, some p =>
    p :: (match findByPk s p with
      | none => []
      | some m => chainFrom s f m.parent_node_id)

/-- Termination of the upward walk within the given fuel, with every
visited parent id present in the store. -/
def ancOk (s : Store) : Nat → Option Nat → Bool
  | _, none => true
  | 0, some _ => false
  | f + 1, some p =>
    match findByPk s p with
    | none => false
    | some m => ancOk s f m.parent_node_id

/-- Membership of a row in the subtree rooted at the id x: the row is x
itself or x occurs on its upward ancestor chain. -/
def inSub (s : Store) (x : Nat) (m : Node) : Bool :=
  m.id == x || (chainFrom s (s.length + 1) m.parent_node_id).contains x

/-- Well-formed store: primary keys are unique and every parent chain
walks up to the root (a null parent) within the size of the store, all
its links resolving. This is the rooted-tree invariant of the spec. -/
def WF (s : Store) : Prop :=
  (s.map (fun m => m.id)).Nodup ∧ ∀ m ∈ s, ancOk s s.length m.parent_node_id = true

instance (s : Store) : Decidable (WF s) :=
  inferInstanceAs (Decidable (_ ∧ _))

/-- Intermediate stores of the recursive subtree deletion: every remaining
row still has its full ancestor chain present (children are deleted
before their parents, so the walk upward never dangles). -/
def upClosed (s acc : Store) : Prop :=
  ∀ m ∈ acc, ∀ p ∈ chainFrom s (s.length + 1) m.parent_node_id, ∃ mp ∈ acc, mp.id = p

instance {ε α : Type} [DecidableEq ε] [DecidableEq α] : DecidableEq (Except ε α) := fun a b =>
  match a, b with
  | .ok x, .ok y => decidable_of_iff (x = y) (by simp)
  | .error x, .error y => decidable_of_iff (x = y) (by simp)
  | .ok _, .error _ => isFalse (by simp)
  | .error _, .ok _ => isFalse (by simp)

/-- Root row created by the bootstrap in app.js. -/
def rootNode : Node := ⟨1, "Root Node", none, 0⟩

/-- Store holding only the bootstrap root. -/
def demoRoot : Store := [rootNode]

/-- Store with root and two children A and B, the recurring spec scenario. -/
def nodeA : Node := ⟨2, "A", some 1, 0⟩

def nodeB : Node := ⟨3, "B", some 1, 1⟩

def demoTwo : Store := [rootNode, nodeA, nodeB]

/-- Store where A additionally has a child C, for subtree scenarios. -/
def nodeC : Node := ⟨4, "C", some 2, 0⟩

def demoDeep : Store := [rootNode, nodeA, nodeB, nodeC]

/-- Dense zero-based ordering sequence 0, 1, ..., n-1 as integers: the
sibling ordering multiset the density invariant of the spec requires. -/
def rangeInt (n : Nat) : List Int := List.map (fun j : Nat => (j : Int)) (List.range n)

/-- Index assigned to an id by the sequential update loop of the reorder
route: position of the id in the rearranged sibling id list, offset by
the starting index of the loop. -/
def assignIdx : List Nat → Int → Nat → Option Int
  | [], _, _ => none
  | a :: rest, k, m => if m = a then some k else assignIdx rest (k + 1) m

/-- Index a sibling at position j of the ascending sibling list occupies
after the two splices of the reorder route: removal at index pa shifts
later elements down one, reinsertion at index k shifts elements from k
on up one. -/
def newPos (pa k j : Nat) : Nat :=
  let e := if j < pa then j else j - 1
  if e < k then e else e + 1

theorem findByPk_some_id {s : Store} {i : Nat} {n : Node}
    (h : findByPk s i = some n) : n.id = i := by
  unfold findByPk at h
  have hb := List.find?_some h
  exact eq_of_beq hb

theorem findByPk_mem {s : Store} {i : Nat} {n : Node}
    (h : findByPk s i = some n) : n ∈ s := by
  unfold findByPk at h
  exact List.mem_of_find?_eq_some h

theorem findByPk_map (g : Node → Node) (hg : ∀ m, (g m).id = m.id)
    (s : Store) (j : Nat) :
    findByPk (s.map g) j = (findByPk s j).map g := by
  induction s with
  | nil => rfl
  | cons a l ih =>
    simp only [List.map_cons]
    unfold findByPk at ih ⊢
    rw [List.find?_cons, List.find?_cons, hg a]
    cases h : (a.id == j)
    · simpa using ih
    · simp

theorem findByPk_updateById (g : Node → Node) (hg : ∀ m, (g m).id = m.id)
    (s : Store) (i j : Nat) :
    findByPk (updateById s i g) j =
      (findByPk s j).map (fun m => if m.id = i then g m else m) := by
  unfold updateById
  apply findByPk_map
  intro m
  by_cases h : m.id = i <;> simp [h, hg]

theorem findByPk_updateById_ne (g : Node → Node) (hg : ∀ m, (g m).id = m.id)
    (s : Store) {i j : Nat} (hij : j ≠ i) :
    findByPk (updateById s i g) j = findByPk s j := by
  rw [findByPk_updateById g hg]
  cases hf : findByPk s j with
  | none => rfl
  | some n =>
    have hid : n.id = j := findByPk_some_id hf
    simp [hid, hij]

theorem findByPk_updateById_eq (g : Node → Node) (hg : ∀ m, (g m).id = m.id)
    {s : Store} {i : Nat} {n : Node} (h : findByPk s i = some n) :
    findByPk (updateById s i g) i = some (g n) := by
  rw [findByPk_updateById g hg, h]
  simp [findByPk_some_id h]

theorem id_le_fold (s : Store) : ∀ m ∈ s, m.id ≤ s.foldr (fun m acc => max m.id acc) 0 := by
  induction s with
  | nil => intro m hm; cases hm
  | cons a l ih =>
    intro m hm
    rcases List.mem_cons.mp hm with hm | hm
    · subst hm; exact le_max_left _ _
    · exact le_trans (ih m hm) (le_max_right _ _)

theorem mem_id_lt_freshId {s : Store} {m : Node} (hm : m ∈ s) : m.id < freshId s :=
  Nat.lt_succ_of_le (id_le_fold s m hm)

/-- C1: contrary to the specification (and to the README of the
repository, which documents 404 Not Found for DELETE), the delete route
performs no existence check: deleting the absent non-root id 5 from the
root-only store succeeds with ok and removes no rows, instead of failing
with NotFound. -/
theorem deleteNode_missing_id_not_notfound :
    deleteNode 2 demoRoot 5 = Except.ok demoRoot ∧
    (Except.ok demoRoot : Except Err Store) ≠ Except.error Err.NotFound := by
  exact ⟨by decide, by decide⟩

/-- C5: inserting fails with InvalidParent exactly when the parent id is
absent, and creates no row; when the parent exists, exactly one new row
is appended, carrying a fresh id unused in the store, the given title,
the given parent, and ordering equal to the child count of the parent
before the insert. -/
theorem insertNode_spec (s : Store) (pid : Nat) (t : String) :
    (findByPk s pid = none → insertNode s pid t = Except.error Err.InvalidParent) ∧
    (findByPk s pid ≠ none →
      insertNode s pid t =
        Except.ok (s ++ [⟨freshId s, t, some pid, ((childrenOf s (some pid)).length : Int)⟩],
          ⟨freshId s, t, some pid, ((childrenOf s (some pid)).length : Int)⟩) ∧
      ∀ m ∈ s, m.id ≠ freshId s) := by
  constructor
  · intro h
    simp [insertNode, h]
  · intro h
    cases hf : findByPk s pid with
    | none => exact absurd hf h
    | some pn =>
      refine ⟨by simp [insertNode, hf], ?_⟩
      intro m hm
      exact Nat.ne_of_lt (mem_id_lt_freshId hm)

/-- Witness for C5 at the spec scenario: two successive inserts under the
root-only store receive orderings 0 and 1, fresh ids 2 and 3, appended
as rows of the store. -/
theorem insertNode_spec_witness :
    findByPk demoRoot 1 ≠ none ∧
    insertNode demoRoot 1 "A" =
      Except.ok (demoRoot ++ [⟨2, "A", some 1, 0⟩], ⟨2, "A", some 1, 0⟩) ∧
    insertNode (demoRoot ++ [⟨2, "A", some 1, 0⟩]) 1 "B" =
      Except.ok ((demoRoot ++ [⟨2, "A", some 1, 0⟩]) ++ [⟨3, "B", some 1, 1⟩],
        ⟨3, "B", some 1, 1⟩) := by
  refine ⟨by decide, ?_, ?_⟩
  · exact ((insertNode_spec demoRoot 1 "A").2 (by decide)).1
  · exact ((insertNode_spec (demoRoot ++ [⟨2, "A", some 1, 0⟩]) 1 "B").2 (by decide)).1

/-- C9: updating fails with NotFound when the id is absent (changing
nothing, as the error is raised before any write); otherwise only the
title of that row is replaced: the row keeps its id, parent and
ordering, every other lookup is unchanged, and no row is added or
removed. -/
theorem updateNode_spec (s : Store) (i : Nat) (t : String) :
    (findByPk s i = none → updateNode s i t = Except.error Err.NotFound) ∧
    (∀ n, findByPk s i = some n →
      updateNode s i t = Except.ok (updateById s i (retitle t)) ∧
      findByPk (updateById s i (retitle t)) i = some { n with title := t } ∧
      (∀ j, j ≠ i → findByPk (updateById s i (retitle t)) j = findByPk s j) ∧
      (updateById s i (retitle t)).length = s.length) := by
  constructor
  · intro h
    simp [updateNode, h]
  · intro n h
    refine ⟨by simp [updateNode, h], ?_, ?_, by simp [updateById]⟩
    · exact findByPk_updateById_eq (retitle t) (fun m => rfl) h
    · intro j hj
      exact findByPk_updateById_ne (retitle t) (fun m => rfl) s hj

/-- Witness for C9: retitling node 3 of the two-child store replaces only
its title; node 2 is untouched. -/
theorem updateNode_spec_witness :
    updateNode demoTwo 3 "BB" = Except.ok (updateById demoTwo 3 (retitle "BB")) ∧
    findByPk (updateById demoTwo 3 (retitle "BB")) 3 = some ⟨3, "BB", some 1, 1⟩ ∧
    findByPk (updateById demoTwo 3 (retitle "BB")) 2 = findByPk demoTwo 2 := by
  have h := (updateNode_spec demoTwo 3 "BB").2 nodeB (by decide)
  exact ⟨h.1, h.2.1, h.2.2.1 2 (by decide)⟩

theorem sortByOrdering_length (l : List Node) :
    (sortByOrdering l).length = l.length :=
  (List.perm_insertionSort ordLE l).length_eq

theorem reorderCore_invalid_iff (s : Store) (node : Node) (newOrd : Int) :
    (reorderCore s node newOrd = Except.error Err.InvalidOrdering ↔
      newOrd < 0 ∨ ((childrenOf s node.parent_node_id).length : Int) ≤ newOrd) := by
  have hlen := sortByOrdering_length (childrenOf s node.parent_node_id)
  by_cases hc : newOrd < 0 ∨ ((childrenOf s node.parent_node_id).length : Int) ≤ newOrd
  · have hc2 : newOrd < 0 ∨
        (((sortByOrdering (childrenOf s node.parent_node_id)).length : Int) ≤ newOrd) := by
      rw [hlen]; exact hc
    simp only [reorderCore]
    rw [if_pos hc2]
    exact iff_of_true rfl hc
  · have hc2 : ¬ (newOrd < 0 ∨
        (((sortByOrdering (childrenOf s node.parent_node_id)).length : Int) ≤ newOrd)) := by
      rw [hlen]; exact hc
    simp only [reorderCore]
    rw [if_neg hc2]
    exact iff_of_false (fun h => Except.noConfusion h) hc

theorem reorderNode_of_found {s : Store} {i : Nat} {n0 : Node} (newOrd : Int)
    (hfind : findByPk s i = some n0) :
    reorderNode s i newOrd = reorderCore s n0 newOrd := by
  simp [reorderNode, hfind]

/-- C7: for an existing node, reorder fails with InvalidOrdering exactly
when the requested position is negative or at least the sibling count
(the siblings being all rows sharing the node's parent, the node
included); the bounds check precedes every write, so a failing call
changes no ordering (the error outcome carries the store unchanged). -/
theorem reorderNode_invalid_iff (s : Store) (i : Nat) (newOrd : Int) (n0 : Node)
    (hfind : findByPk s i = some n0) :
    (reorderNode s i newOrd = Except.error Err.InvalidOrdering ↔
      newOrd < 0 ∨ ((childrenOf s n0.parent_node_id).length : Int) ≤ newOrd) := by
  rw [reorderNode_of_found newOrd hfind]
  exact reorderCore_invalid_iff s n0 newOrd

/-- Witness for C7: with two siblings under the root, position 2 (the
sibling count) and position -1 are rejected with InvalidOrdering, while
position 1 is not rejected. -/
theorem reorderNode_invalid_iff_witness :
    reorderNode demoTwo 2 2 = Except.error Err.InvalidOrdering ∧
    reorderNode demoTwo 2 (-1) = Except.error Err.InvalidOrdering ∧
    reorderNode demoTwo 2 1 ≠ Except.error Err.InvalidOrdering := by
  refine ⟨?_, ?_, ?_⟩
  · exact (reorderNode_invalid_iff demoTwo 2 2 nodeA (by decide)).mpr (by decide)
  · exact (reorderNode_invalid_iff demoTwo 2 (-1) nodeA (by decide)).mpr (by decide)
  · intro h
    exact absurd ((reorderNode_invalid_iff demoTwo 2 1 nodeA (by decide)).mp h) (by decide)

/-- C6: a successful move (both rows exist, the moved id is not the root,
the cycle walk answers false) sets the moved row's parent to the new
parent and its ordering to the number of rows currently stored under the
new parent, and changes nothing else: every other lookup is unchanged,
so the old siblings are in particular not renumbered. -/
theorem moveNode_success_spec (fuel : Nat) (s : Store) (i p : Nat) (n : Node)
    (hn : findByPk s i = some n) (hp : findByPk s p ≠ none) (hroot : i ≠ 1)
    (hnc : isDescendant s fuel (some p) i = some false) :
    moveNode fuel s i p =
      Except.ok (updateById s i (moveUpd p ((childrenOf s (some p)).length : Int))) ∧
    findByPk (updateById s i (moveUpd p ((childrenOf s (some p)).length : Int))) i =
      some { n with parent_node_id := some p,
                    ordering := ((childrenOf s (some p)).length : Int) } ∧
    (∀ j, j ≠ i →
      findByPk (updateById s i (moveUpd p ((childrenOf s (some p)).length : Int))) j =
        findByPk s j) := by
  cases hpn : findByPk s p with
  | none => exact absurd hpn hp
  | some pn =>
    refine ⟨?_, ?_, ?_⟩
    · simp [moveNode, hn, hpn, hroot, hnc]
    · exact findByPk_updateById_eq (moveUpd p ((childrenOf s (some p)).length : Int))
        (fun m => rfl) hn
    · intro j hj
      exact findByPk_updateById_ne (moveUpd p ((childrenOf s (some p)).length : Int))
        (fun m => rfl) s hj

/-- Witness for C6 at the spec scenario: moving A(2) under B(3), which has
no children, gives A parent 3 and ordering 0; the root and B are
untouched. -/
theorem moveNode_success_spec_witness :
    moveNode 5 demoTwo 2 3 = Except.ok (updateById demoTwo 2 (moveUpd 3 0)) ∧
    findByPk (updateById demoTwo 2 (moveUpd 3 0)) 2 = some ⟨2, "A", some 3, 0⟩ ∧
    findByPk (updateById demoTwo 2 (moveUpd 3 0)) 3 = findByPk demoTwo 3 := by
  have h := moveNode_success_spec 5 demoTwo 2 3 nodeA (by decide) (by decide)
    (by decide) (by decide)
  exact ⟨h.1, h.2.1, h.2.2 3 (by decide)⟩

theorem chain_isDescendant (s : Store) :
    ∀ (f : Nat) (op : Option Nat) (y : Nat),
      y ∈ chainFrom s f op → isDescendant s f op y = some true := by
  intro f
  induction f with
  | zero =>
    intro op y hy
    cases op with
    | none => simp [chainFrom] at hy
    | some p =>
      have hyp : y = p := by simpa [chainFrom] using hy
      subst hyp
      simp [isDescendant]
  | succ f ih =>
    intro op y hy
    cases op with
    | none => simp [chainFrom] at hy
    | some p =>
      by_cases hpy : p = y
      · subst hpy
        simp [isDescendant]
      · cases hm : findByPk s p with
        | none =>
          rw [chainFrom, hm] at hy
          simp at hy
          exact absurd hy.symm hpy
        | some m =>
          rw [chainFrom, hm] at hy
          rcases List.mem_cons.mp hy with hy | hy
          · exact absurd hy.symm hpy
          · simp [isDescendant, hm, Ne.symm hpy, ih m.parent_node_id y hy]

/-- C3: when the target parent is the moved node itself or lies in its
subtree (the moved id occurs on the upward ancestor chain of the target
parent, the chain beginning with the target parent itself), the move
fails with Cycle; the check precedes every write, so no parent or
ordering changes (the error outcome carries the store unchanged). -/
theorem moveNode_cycle (fuel : Nat) (s : Store) (i p : Nat)
    (hn : findByPk s i ≠ none) (hp : findByPk s p ≠ none) (hroot : i ≠ 1)
    (hc : i ∈ chainFrom s fuel (some p)) :
    moveNode fuel s i p = Except.error Err.Cycle := by
  have hd := chain_isDescendant s fuel (some p) i hc
  cases hnn : findByPk s i with
  | none => exact absurd hnn hn
  | some n =>
    cases hpn : findByPk s p with
    | none => exact absurd hpn hp
    | some pn => simp [moveNode, hnn, hpn, hroot, hd]

/-- Witness for C3: in the store where C(4) is a child of A(2), moving A
under its descendant C fails with Cycle, and moving A under itself fails
with Cycle. -/
theorem moveNode_cycle_witness :
    moveNode 5 demoDeep 2 4 = Except.error Err.Cycle ∧
    moveNode 5 demoDeep 2 2 = Except.error Err.Cycle := by
  refine ⟨?_, ?_⟩
  · exact moveNode_cycle 5 demoDeep 2 4 (by decide) (by decide) (by decide) (by decide)
  · exact moveNode_cycle 5 demoDeep 2 2 (by decide) (by decide) (by decide) (by decide)

theorem rangeInt_sorted (n : Nat) : List.Sorted (fun a b : Int => a ≤ b) (rangeInt n) := by
  have h1 : List.Pairwise (fun a b : Int => a < b) (rangeInt n) :=
    List.Pairwise.map (fun j : Nat => (j : Int)) (fun a b h => by exact Int.ofNat_lt.mpr h)
      (List.pairwise_lt_range n)
  exact h1.imp (fun h => le_of_lt h)

theorem rangeInt_nodup (n : Nat) : (rangeInt n).Nodup := by
  apply List.Nodup.map
  · intro a b h
    exact Int.ofNat_inj.mp h
  · exact List.nodup_range n

theorem rangeInt_getElem (n : Nat) (j : Nat) (h : j < (rangeInt n).length) :
    (rangeInt n)[j] = (j : Int) := by
  unfold rangeInt at h ⊢
  rw [List.getElem_map, List.getElem_range]

theorem rangeInt_length (n : Nat) : (rangeInt n).length = n := by
  simp [rangeInt]

theorem set_ordering_self (m : Node) : ({ m with ordering := m.ordering } : Node) = m := rfl

theorem childrenOf_map (f : Node → Node) {s : Store}
    (hf : ∀ m ∈ s, (f m).parent_node_id = m.parent_node_id) (op : Option Nat) :
    childrenOf (s.map f) op = (childrenOf s op).map f := by
  induction s with
  | nil => rfl
  | cons a l ih =>
    have hfa : (f a).parent_node_id = a.parent_node_id := hf a (List.mem_cons_self a l)
    have hfl : ∀ m ∈ l, (f m).parent_node_id = m.parent_node_id :=
      fun m hm => hf m (List.mem_cons_of_mem a hm)
    simp only [List.map_cons]
    unfold childrenOf at ih ⊢
    rw [List.filter_cons, List.filter_cons]
    by_cases h : (a.parent_node_id == op) = true
    · simp only [hfa, if_pos h, List.map_cons]
      rw [ih hfl]
    · simp only [hfa, if_neg h]
      exact ih hfl

theorem mem_childrenOf {s : Store} {op : Option Nat} {a : Node} :
    a ∈ childrenOf s op ↔ a ∈ s ∧ a.parent_node_id = op := by
  unfold childrenOf
  rw [List.mem_filter]
  constructor
  · rintro ⟨h1, h2⟩
    exact ⟨h1, eq_of_beq h2⟩
  · rintro ⟨h1, h2⟩
    exact ⟨h1, by simp [h2]⟩

theorem findByPk_of_mem {s : Store} (hnd : (s.map (fun m => m.id)).Nodup)
    {a : Node} (ha : a ∈ s) : findByPk s a.id = some a := by
  induction s with
  | nil => cases ha
  | cons h l ih =>
    simp only [List.map_cons, List.nodup_cons] at hnd
    unfold findByPk
    rw [List.find?_cons]
    rcases List.mem_cons.mp ha with rfl | ha2
    · simp
    · have hne : (h.id == a.id) = false := by
        apply beq_eq_false_iff_ne.mpr
        intro he
        apply hnd.1
        rw [he]
        exact List.mem_map.mpr ⟨a, ha2, rfl⟩
      rw [hne]
      exact ih hnd.2 ha2

theorem id_inj {s : Store} (hnd : (s.map (fun m => m.id)).Nodup)
    {a b : Node} (ha : a ∈ s) (hb : b ∈ s) (hab : a.id = b.id) : a = b :=
  List.inj_on_of_nodup_map hnd ha hb hab

theorem insertAt_length (k : Nat) (a : Node) (l : List Node) :
    (insertAt k a l).length = l.length + 1 := by
  induction k generalizing l with
  | zero => rfl
  | succ k ih =>
    cases l with
    | nil => rfl
    | cons b t => simp [insertAt, ih]

theorem insertAt_eq_take_drop : ∀ (k : Nat) (a : Node) (l : List Node), k ≤ l.length →
    insertAt k a l = l.take k ++ a :: l.drop k := by
  intro k
  induction k with
  | zero =>
    intro a l h
    simp [insertAt]
  | succ k ih =>
    intro a l h
    cases l with
    | nil => simp at h
    | cons b t =>
      simp only [insertAt, List.take_succ_cons, List.drop_succ_cons, List.cons_append]
      rw [ih a t (Nat.le_of_succ_le_succ h)]

theorem assignIdx_of_not_mem : ∀ (ids : List Nat) (k : Int) (m : Nat), m ∉ ids →
    assignIdx ids k m = none := by
  intro ids
  induction ids with
  | nil => intro k m _; rfl
  | cons a rest ih =>
    intro k m h
    unfold assignIdx
    have hne : ¬ m = a := by
      intro he
      apply h
      rw [he]
      exact List.mem_cons_self a rest
    rw [if_neg hne]
    exact ih (k + 1) m (fun hm => h (List.mem_cons_of_mem a hm))

theorem assignIdx_getElem : ∀ (ids : List Nat) (j : Nat) (hj : j < ids.length) (k : Int),
    ids.Nodup → assignIdx ids k (ids[j]) = some (k + j) := by
  intro ids
  induction ids with
  | nil =>
    intro j hj
    exact absurd hj (Nat.not_lt_zero j)
  | cons a rest ih =>
    intro j hj k hnd
    rw [List.nodup_cons] at hnd
    cases j with
    | zero => simp [assignIdx]
    | succ j =>
      have hjr : j < rest.length := Nat.lt_of_succ_lt_succ hj
      rw [List.getElem_cons_succ a rest j hj]
      unfold assignIdx
      have hmem : rest[j] ∈ rest := List.getElem_mem hjr
      have hne : rest[j] ≠ a := by
        intro he
        rw [he] at hmem
        exact hnd.1 hmem
      rw [if_neg hne]
      rw [ih j hjr (k + 1) hnd.2]
      congr 1
      push_cast
      ring

theorem applyOrderingsFrom_eq : ∀ (l : List Node) (s : Store) (k : Int),
    (l.map (fun c => c.id)).Nodup →
    applyOrderingsFrom s k l = s.map (fun m =>
      match assignIdx (l.map (fun c => c.id)) k m.id with
      | some o => { m with ordering := o }
      | none => m) := by
  intro l
  induction l with
  | nil =>
    intro s k _
    simp [applyOrderingsFrom, assignIdx]
  | cons c cs ih =>
    intro s k hnd
    simp only [List.map_cons, List.nodup_cons] at hnd
    unfold applyOrderingsFrom
    rw [ih _ (k + 1) hnd.2, List.map_map]
    apply List.map_congr_left
    intro m _
    simp only [Function.comp_apply]
    by_cases hid : m.id = c.id
    · have h1 : assignIdx (cs.map (fun c => c.id)) (k + 1) m.id = none := by
        rw [hid]
        exact assignIdx_of_not_mem _ _ _ hnd.1
      simp only [List.map_cons, assignIdx, if_pos hid, h1]
    · simp only [List.map_cons, assignIdx, if_neg hid]

theorem sortByOrdering_perm (l : List Node) : (sortByOrdering l).Perm l :=
  List.perm_insertionSort ordLE l

theorem sortByOrdering_sorted (l : List Node) : List.Sorted ordLE (sortByOrdering l) :=
  List.sorted_insertionSort ordLE l

theorem sortByOrdering_map_eq (l : List Node)
    (hdense : (l.map (fun m => m.ordering)).Perm (rangeInt l.length)) :
    (sortByOrdering l).map (fun m => m.ordering) = rangeInt l.length := by
  refine List.eq_of_perm_of_sorted ?_ ?_ (rangeInt_sorted l.length)
  · exact (List.Perm.map _ (sortByOrdering_perm l)).trans hdense
  · exact List.Pairwise.map _ (fun a b h => h) (sortByOrdering_sorted l)

theorem length_of_map_rangeInt {q : List Node} {n : Nat}
    (hq : q.map (fun m => m.ordering) = rangeInt n) : q.length = n := by
  have h := congrArg List.length hq
  rw [List.length_map, rangeInt_length] at h
  exact h

theorem ord_getElem_of_map_rangeInt {q : List Node} {n : Nat}
    (hq : q.map (fun m => m.ordering) = rangeInt n) (j : Nat) (hj : j < q.length) :
    q[j].ordering = (j : Int) := by
  have hj2 : j < (q.map (fun m => m.ordering)).length := by
    rw [List.length_map]
    exact hj
  have h1 : (q.map (fun m => m.ordering))[j] = q[j].ordering := by
    rw [List.getElem_map]
  have hj3 : j < (rangeInt n).length := by
    rw [rangeInt_length, ← length_of_map_rangeInt hq]
    exact hj
  calc q[j].ordering = (List.map (fun m => m.ordering) q)[j] := h1.symm
    _ = (rangeInt n)[j] := List.getElem_of_eq hq hj2
    _ = (j : Int) := rangeInt_getElem n j hj3

theorem pos_of_map_rangeInt {q : List Node} {n : Nat}
    (hq : q.map (fun m => m.ordering) = rangeInt n)
    {a : Node} (ha : a ∈ q) :
    ∃ pa, ∃ hpa : pa < q.length, q[pa] = a ∧ a.ordering = (pa : Int) := by
  rcases List.mem_iff_getElem.mp ha with ⟨pa, hpa, hget⟩
  refine ⟨pa, hpa, hget, ?_⟩
  rw [← hget]
  exact ord_getElem_of_map_rangeInt hq pa hpa

theorem childrenOf_sublist (s : Store) (op : Option Nat) : (childrenOf s op).Sublist s :=
  List.filter_sublist s

theorem childrenOf_ids_nodup {s : Store} (hnd : (s.map (fun m => m.id)).Nodup)
    (op : Option Nat) : ((childrenOf s op).map (fun m => m.id)).Nodup :=
  List.Nodup.sublist (List.Sublist.map _ (childrenOf_sublist s op)) hnd

theorem sortByOrdering_ids_nodup {s : Store} (hnd : (s.map (fun m => m.id)).Nodup)
    (op : Option Nat) :
    ((sortByOrdering (childrenOf s op)).map (fun m => m.id)).Nodup :=
  (((sortByOrdering_perm (childrenOf s op)).map (fun m => m.id)).nodup_iff).mpr
    (childrenOf_ids_nodup hnd op)

theorem insertAt_eraseIdx {q : List Node} {pa : Nat} (hpa : pa < q.length) :
    insertAt pa q[pa] (q.eraseIdx pa) = q := by
  rw [List.eraseIdx_eq_take_drop_succ]
  have htk : (q.take pa).length = pa := by
    rw [List.length_take]
    exact Nat.min_eq_left (Nat.le_of_lt hpa)
  have hkle : pa ≤ (q.take pa ++ q.drop (pa + 1)).length := by
    rw [List.length_append, htk]
    omega
  rw [insertAt_eq_take_drop pa _ _ hkle]
  rw [List.take_left' htk, List.drop_left' htk]
  rw [← List.drop_eq_getElem_cons hpa]
  exact List.take_append_drop pa q

theorem applyOrderings_fix (s : Store) (q : List Node)
    (hnd : (s.map (fun m => m.id)).Nodup)
    (hq_sub : ∀ a ∈ q, a ∈ s)
    (hqnd : (q.map (fun c => c.id)).Nodup)
    (hord : ∀ (t : Nat) (ht : t < q.length), q[t].ordering = (t : Int)) :
    applyOrderingsFrom s 0 q = s := by
  rw [applyOrderingsFrom_eq q s 0 hqnd]
  have hpt : ∀ m ∈ s, (match assignIdx (q.map (fun c => c.id)) 0 m.id with
      | some o => ({ m with ordering := o } : Node)
      | none => m) = m := by
    intro m hm
    by_cases hmemq : m.id ∈ q.map (fun c => c.id)
    · obtain ⟨t, ht, hidt⟩ := List.mem_iff_getElem.mp hmemq
      have htq : t < q.length := by
        rw [List.length_map] at ht
        exact ht
      have h3 : (List.map (fun c => c.id) q)[t] = q[t].id := by
        rw [List.getElem_map]
      have hassign := assignIdx_getElem (q.map (fun c => c.id)) t ht 0 hqnd
      rw [hidt] at hassign
      rw [h3] at hidt
      have hqt_mem_s : q[t] ∈ s := hq_sub _ (List.getElem_mem htq)
      have hmq : m = q[t] := id_inj hnd hm hqt_mem_s hidt.symm
      rw [hassign]
      have hval : (0 : Int) + (t : Int) = m.ordering := by
        rw [zero_add, hmq]
        exact (hord t htq).symm
      rw [hval]
    · rw [assignIdx_of_not_mem _ _ _ hmemq]
  calc s.map (fun m => match assignIdx (q.map (fun c => c.id)) 0 m.id with
      | some o => ({ m with ordering := o } : Node)
      | none => m)
      = s.map (fun m => m) := List.map_congr_left hpt
    _ = s := List.map_id' s

/-- C8: reordering an existing node to its current position, under the
density invariant for its sibling group, is a no-op: the call succeeds
and returns the store unchanged, so every sibling keeps its ordering. -/
theorem reorderNode_noop (s : Store) (i : Nat) (n0 : Node)
    (hnd : (s.map (fun m => m.id)).Nodup)
    (hfind : findByPk s i = some n0)
    (hdense : ((childrenOf s n0.parent_node_id).map (fun m => m.ordering)).Perm
      (rangeInt (childrenOf s n0.parent_node_id).length)) :
    reorderNode s i n0.ordering = Except.ok s := by
  have hmap : (sortByOrdering (childrenOf s n0.parent_node_id)).map (fun m => m.ordering)
      = rangeInt (childrenOf s n0.parent_node_id).length :=
    sortByOrdering_map_eq (childrenOf s n0.parent_node_id) hdense
  have hn0sg : n0 ∈ childrenOf s n0.parent_node_id :=
    mem_childrenOf.mpr ⟨findByPk_mem hfind, rfl⟩
  have hn0q : n0 ∈ sortByOrdering (childrenOf s n0.parent_node_id) :=
    ((sortByOrdering_perm _).mem_iff).mpr hn0sg
  obtain ⟨pa, hpa, hget, hordpa⟩ := pos_of_map_rangeInt hmap hn0q
  have h0 : (0 : Int) ≤ n0.ordering := by
    rw [hordpa]
    exact Int.natCast_nonneg pa
  have hlt : n0.ordering <
      ((sortByOrdering (childrenOf s n0.parent_node_id)).length : Int) := by
    rw [hordpa]
    exact_mod_cast hpa
  rw [reorderNode_of_found n0.ordering hfind]
  simp only [reorderCore]
  have hcond : ¬ (n0.ordering < 0 ∨
      (((sortByOrdering (childrenOf s n0.parent_node_id)).length : Int) ≤ n0.ordering)) := by
    rw [not_or]
    exact ⟨not_lt.mpr h0, not_le.mpr hlt⟩
  rw [if_neg hcond]
  have hs1 : jsSpliceStart (sortByOrdering (childrenOf s n0.parent_node_id)).length
      n0.ordering = pa := by
    unfold jsSpliceStart
    rw [if_neg (not_lt.mpr h0), hordpa]
    exact Int.toNat_natCast pa
  have hs2 : jsSpliceStart
      ((sortByOrdering (childrenOf s n0.parent_node_id)).eraseIdx pa).length
      n0.ordering = pa := by
    unfold jsSpliceStart
    rw [if_neg (not_lt.mpr h0), hordpa]
    exact Int.toNat_natCast pa
  rw [hs1, hs2]
  have hins := insertAt_eraseIdx hpa
  rw [hget] at hins
  rw [hins]
  have happ : applyOrderingsFrom s 0 (sortByOrdering (childrenOf s n0.parent_node_id)) = s := by
    apply applyOrderings_fix s _ hnd
    · intro a haq
      exact (mem_childrenOf.mp (((sortByOrdering_perm _).mem_iff).mp haq)).1
    · exact sortByOrdering_ids_nodup hnd _
    · intro t ht
      exact ord_getElem_of_map_rangeInt hmap t ht
  rw [happ]

/-- Witness for C8: in the two-child store, reordering A(2) to its current
position 0 returns the store unchanged. -/
theorem reorderNode_noop_witness :
    reorderNode demoTwo 2 0 = Except.ok demoTwo :=
  reorderNode_noop demoTwo 2 nodeA (by decide) (by decide) (by decide)

theorem insertAt_perm (k : Nat) (a : Node) (l : List Node) :
    (insertAt k a l).Perm (a :: l) := by
  induction k generalizing l with
  | zero => exact List.Perm.refl _
  | succ k ih =>
    cases l with
    | nil => exact List.Perm.refl _
    | cons b t => exact ((ih t).cons b).trans (List.Perm.swap a b t)

theorem perm_cons_eraseIdx {q : List Node} {pa : Nat} (hpa : pa < q.length) :
    q.Perm (q[pa] :: q.eraseIdx pa) := by
  conv_lhs => rw [← List.take_append_drop pa q, List.drop_eq_getElem_cons hpa]
  rw [List.eraseIdx_eq_take_drop_succ]
  exact List.perm_middle

theorem insertAt_getElem_self : ∀ (k : Nat) (a : Node) (l : List Node), k ≤ l.length →
    ∀ (h : k < (insertAt k a l).length), (insertAt k a l)[k] = a := by
  intro k
  induction k with
  | zero =>
    intro a l _ h
    rfl
  | succ k ih =>
    intro a l hk h
    cases l with
    | nil => simp at hk
    | cons b t =>
      have h2 : k < (insertAt k a t).length := by
        rw [insertAt_length]
        rw [List.length_cons] at hk
        omega
      simp only [insertAt]
      rw [List.getElem_cons_succ]
      exact ih a t (Nat.le_of_succ_le_succ hk) h2

theorem insertAt_getElem_lt : ∀ (k : Nat) (a : Node) (l : List Node) (j : Nat),
    j < k → ∀ (hj : j < l.length) (h : j < (insertAt k a l).length),
    (insertAt k a l)[j] = l[j] := by
  intro k
  induction k with
  | zero =>
    intro a l j hjk
    exact absurd hjk (Nat.not_lt_zero j)
  | succ k ih =>
    intro a l j hjk hj h
    cases l with
    | nil => exact absurd hj (Nat.not_lt_zero j)
    | cons b t =>
      cases j with
      | zero => rfl
      | succ j =>
        have h2 : j < (insertAt k a t).length := by
          rw [insertAt_length]
          rw [List.length_cons] at hj
          omega
        simp only [insertAt]
        rw [List.getElem_cons_succ, List.getElem_cons_succ]
        exact ih a t j (Nat.lt_of_succ_lt_succ hjk) (Nat.lt_of_succ_lt_succ hj) h2

theorem insertAt_getElem_ge : ∀ (k : Nat) (a : Node) (l : List Node) (j : Nat),
    k ≤ j → ∀ (hj : j < l.length) (h : j + 1 < (insertAt k a l).length),
    (insertAt k a l)[j + 1] = l[j] := by
  intro k
  induction k with
  | zero =>
    intro a l j _ hj h
    simp only [insertAt]
    rw [List.getElem_cons_succ]
  | succ k ih =>
    intro a l j hkj hj h
    cases l with
    | nil => exact absurd hj (Nat.not_lt_zero j)
    | cons b t =>
      cases j with
      | zero => exact absurd hkj (by omega)
      | succ j =>
        have h2 : j + 1 < (insertAt k a t).length := by
          rw [insertAt_length]
          rw [List.length_cons] at hj
          omega
        simp only [insertAt]
        rw [List.getElem_cons_succ, List.getElem_cons_succ]
        exact ih a t j (Nat.le_of_succ_le_succ hkj) (Nat.lt_of_succ_lt_succ hj) h2

theorem newPos_strictMono {pa k ja jb : Nat} (hja : ja ≠ pa) (hjb : jb ≠ pa)
    (hab : ja < jb) : newPos pa k ja < newPos pa k jb := by
  simp only [newPos]
  split_ifs <;> omega

theorem l2_getElem_newPos (q : List Node) (n0 : Node) (pa k : Nat)
    (hpa : pa < q.length) (hkle : k ≤ (q.eraseIdx pa).length)
    (j : Nat) (hj : j < q.length) (hne : j ≠ pa) :
    ∃ h2 : newPos pa k j < (insertAt k n0 (q.eraseIdx pa)).length,
      (insertAt k n0 (q.eraseIdx pa))[newPos pa k j] = q[j] := by
  have hlen1 : (q.eraseIdx pa).length = q.length - 1 := by
    rw [List.length_eraseIdx, if_pos hpa]
  have hlen2 : (insertAt k n0 (q.eraseIdx pa)).length = q.length := by
    rw [insertAt_length, hlen1]
    omega
  by_cases hjpa : j < pa
  · have hjl1 : j < (q.eraseIdx pa).length := by omega
    have he : (q.eraseIdx pa)[j] = q[j] := List.getElem_eraseIdx_of_lt q pa j hjl1 hjpa
    by_cases hek : j < k
    · have hnp : newPos pa k j = j := by simp [newPos, hjpa, hek]
      have hb : newPos pa k j < (insertAt k n0 (q.eraseIdx pa)).length := by omega
      refine ⟨hb, ?_⟩
      simp only [hnp]
      rw [insertAt_getElem_lt k n0 (q.eraseIdx pa) j hek hjl1 (by omega)]
      exact he
    · have hnp : newPos pa k j = j + 1 := by simp [newPos, hjpa, hek]
      have hb : newPos pa k j < (insertAt k n0 (q.eraseIdx pa)).length := by omega
      refine ⟨hb, ?_⟩
      simp only [hnp]
      rw [insertAt_getElem_ge k n0 (q.eraseIdx pa) j (by omega) hjl1 (by omega)]
      exact he
  · have hpaj : pa < j := by omega
    have hjl1 : j - 1 < (q.eraseIdx pa).length := by omega
    have he : (q.eraseIdx pa)[j - 1] = q[j] := by
      have := List.getElem_eraseIdx_of_ge q pa (j - 1) hjl1 (by omega)
      rw [this]
      simp only [show j - 1 + 1 = j from by omega]
    by_cases hek : j - 1 < k
    · have hnp : newPos pa k j = j - 1 := by simp [newPos, hjpa, hek]
      have hb : newPos pa k j < (insertAt k n0 (q.eraseIdx pa)).length := by omega
      refine ⟨hb, ?_⟩
      simp only [hnp]
      rw [insertAt_getElem_lt k n0 (q.eraseIdx pa) (j - 1) hek hjl1 (by omega)]
      exact he
    · have hnp : newPos pa k j = j - 1 + 1 := by simp [newPos, hjpa, hek]
      have hb : newPos pa k j < (insertAt k n0 (q.eraseIdx pa)).length := by omega
      refine ⟨hb, ?_⟩
      simp only [hnp]
      rw [insertAt_getElem_ge k n0 (q.eraseIdx pa) (j - 1) (by omega) hjl1 (by omega)]
      exact he

theorem map_assign_ord (l2 : List Node) (hnd2 : (l2.map (fun c => c.id)).Nodup) :
    ((l2.map (fun m => match assignIdx (l2.map (fun c => c.id)) 0 m.id with
      | some o => ({ m with ordering := o } : Node)
      | none => m)).map (fun m => m.ordering)) = rangeInt l2.length := by
  apply List.ext_getElem
  · rw [List.length_map, List.length_map, rangeInt_length]
  · intro t h1 h2
    have htl : t < l2.length := by
      rw [List.length_map, List.length_map] at h1
      exact h1
    have htm : t < (l2.map (fun c => c.id)).length := by
      rw [List.length_map]
      exact htl
    simp only [List.getElem_map]
    have hidt : (l2.map (fun c => c.id))[t] = l2[t].id := by
      rw [List.getElem_map]
    have hassign := assignIdx_getElem (l2.map (fun c => c.id)) t htm 0 hnd2
    rw [hidt] at hassign
    rw [hassign, rangeInt_getElem]
    rw [zero_add]

/-- C2: for an existing node whose sibling group (all rows sharing its
parent, itself included) carries the dense orderings 0..n-1, and a
requested position newOrd with 0 <= newOrd < n, the reorder route takes
the siblings in ascending ordering, removes the node at the index equal
to its current ordering, reinserts it at index newOrd and rewrites every
sibling ordering to its index in the resulting list; afterwards the node
carries ordering newOrd, the sibling orderings are again exactly 0..n-1,
and any two other siblings keep their relative order. -/
theorem reorderNode_spec (s : Store) (i : Nat) (newOrd : Int) (n0 : Node)
    (hnd : (s.map (fun m => m.id)).Nodup)
    (hfind : findByPk s i = some n0)
    (hdense : ((childrenOf s n0.parent_node_id).map (fun m => m.ordering)).Perm
      (rangeInt (childrenOf s n0.parent_node_id).length))
    (h0 : 0 ≤ newOrd)
    (hlt : newOrd < ((childrenOf s n0.parent_node_id).length : Int)) :
    ∃ s2, reorderNode s i newOrd = Except.ok s2 ∧
      findByPk s2 i = some { n0 with ordering := newOrd } ∧
      ((childrenOf s2 n0.parent_node_id).map (fun m => m.ordering)).Perm
        (rangeInt (childrenOf s n0.parent_node_id).length) ∧
      (∀ a, a ∈ childrenOf s n0.parent_node_id →
        ∀ b, b ∈ childrenOf s n0.parent_node_id →
        a.id ≠ i → b.id ≠ i → a.ordering < b.ordering →
        ∀ a2 b2, findByPk s2 a.id = some a2 → findByPk s2 b.id = some b2 →
          a2.ordering < b2.ordering) := by
  have hmap := sortByOrdering_map_eq (childrenOf s n0.parent_node_id) hdense
  have hn0sg : n0 ∈ childrenOf s n0.parent_node_id :=
    mem_childrenOf.mpr ⟨findByPk_mem hfind, rfl⟩
  have hn0q : n0 ∈ sortByOrdering (childrenOf s n0.parent_node_id) :=
    ((sortByOrdering_perm _).mem_iff).mpr hn0sg
  obtain ⟨pa, hpa, hget, hordpa⟩ := pos_of_map_rangeInt hmap hn0q
  have hqlen : (sortByOrdering (childrenOf s n0.parent_node_id)).length
      = (childrenOf s n0.parent_node_id).length := sortByOrdering_length _
  rw [reorderNode_of_found newOrd hfind]
  simp only [reorderCore]
  have hcond : ¬ (newOrd < 0 ∨
      (((sortByOrdering (childrenOf s n0.parent_node_id)).length : Int) ≤ newOrd)) := by
    rw [not_or, hqlen]
    exact ⟨not_lt.mpr h0, not_le.mpr hlt⟩
  rw [if_neg hcond]
  have hordnn : ¬ n0.ordering < 0 := by
    rw [hordpa]
    exact not_lt.mpr (Int.natCast_nonneg pa)
  have hs1 : jsSpliceStart (sortByOrdering (childrenOf s n0.parent_node_id)).length
      n0.ordering = pa := by
    unfold jsSpliceStart
    rw [if_neg hordnn, hordpa]
    exact Int.toNat_natCast pa
  rw [hs1]
  have hs2 : jsSpliceStart
      ((sortByOrdering (childrenOf s n0.parent_node_id)).eraseIdx pa).length
      newOrd = newOrd.toNat := by
    unfold jsSpliceStart
    rw [if_neg (not_lt.mpr h0)]
  rw [hs2]
  have hk : newOrd.toNat < (childrenOf s n0.parent_node_id).length :=
    (Int.toNat_lt h0).mpr hlt
  have hkcast : (newOrd.toNat : Int) = newOrd := Int.toNat_of_nonneg h0
  have hpan : pa < (childrenOf s n0.parent_node_id).length := by
    rw [← hqlen]
    exact hpa
  have hl1len : ((sortByOrdering (childrenOf s n0.parent_node_id)).eraseIdx pa).length
      = (childrenOf s n0.parent_node_id).length - 1 := by
    rw [List.length_eraseIdx, if_pos hpa, hqlen]
  have hkle : newOrd.toNat ≤
      ((sortByOrdering (childrenOf s n0.parent_node_id)).eraseIdx pa).length := by
    rw [hl1len]
    omega
  have hl2perm : (insertAt newOrd.toNat n0 ((sortByOrdering (childrenOf s n0.parent_node_id)).eraseIdx pa)).Perm (sortByOrdering (childrenOf s n0.parent_node_id)) := by
    have h1 := insertAt_perm newOrd.toNat n0
      ((sortByOrdering (childrenOf s n0.parent_node_id)).eraseIdx pa)
    have h2 := perm_cons_eraseIdx hpa
    rw [hget] at h2
    exact h1.trans h2.symm
  have hl2sg : (insertAt newOrd.toNat n0 ((sortByOrdering (childrenOf s n0.parent_node_id)).eraseIdx pa)).Perm (childrenOf s n0.parent_node_id) :=
    hl2perm.trans (sortByOrdering_perm _)
  have hids2 : ((insertAt newOrd.toNat n0 ((sortByOrdering (childrenOf s n0.parent_node_id)).eraseIdx pa)).map (fun c => c.id)).Nodup :=
    ((hl2perm.map (fun c => c.id)).nodup_iff).mpr (sortByOrdering_ids_nodup hnd _)
  have hl2len : (insertAt newOrd.toNat n0 ((sortByOrdering (childrenOf s n0.parent_node_id)).eraseIdx pa)).length = (childrenOf s n0.parent_node_id).length := by
    rw [insertAt_length, hl1len]
    omega
  have happly := applyOrderingsFrom_eq (insertAt newOrd.toNat n0 ((sortByOrdering (childrenOf s n0.parent_node_id)).eraseIdx pa)) s 0 hids2
  have hFid : ∀ m : Node, (match assignIdx (List.map (fun c : Node => c.id) (insertAt newOrd.toNat n0 ((sortByOrdering (childrenOf s n0.parent_node_id)).eraseIdx pa))) 0 m.id with
      | some o => ({ m with ordering := o } : Node)
      | none => m).id = m.id := by
    intro m
    cases assignIdx (List.map (fun c : Node => c.id) (insertAt newOrd.toNat n0 ((sortByOrdering (childrenOf s n0.parent_node_id)).eraseIdx pa))) 0 m.id <;> rfl
  have hFpar : ∀ m : Node, (match assignIdx (List.map (fun c : Node => c.id) (insertAt newOrd.toNat n0 ((sortByOrdering (childrenOf s n0.parent_node_id)).eraseIdx pa))) 0 m.id with
      | some o => ({ m with ordering := o } : Node)
      | none => m).parent_node_id = m.parent_node_id := by
    intro m
    cases assignIdx (List.map (fun c : Node => c.id) (insertAt newOrd.toNat n0 ((sortByOrdering (childrenOf s n0.parent_node_id)).eraseIdx pa))) 0 m.id <;> rfl
  have hkb : newOrd.toNat < (insertAt newOrd.toNat n0 ((sortByOrdering (childrenOf s n0.parent_node_id)).eraseIdx pa)).length := by
    rw [hl2len]
    exact hk
  have hl2k : (insertAt newOrd.toNat n0 ((sortByOrdering (childrenOf s n0.parent_node_id)).eraseIdx pa))[newOrd.toNat] = n0 :=
    insertAt_getElem_self newOrd.toNat n0
      ((sortByOrdering (childrenOf s n0.parent_node_id)).eraseIdx pa) hkle hkb
  have hassignk := assignIdx_getElem ((insertAt newOrd.toNat n0 ((sortByOrdering (childrenOf s n0.parent_node_id)).eraseIdx pa)).map (fun c => c.id)) newOrd.toNat
    (by rw [List.length_map]; exact hkb) 0 hids2
  simp only [List.getElem_map] at hassignk
  rw [hl2k] at hassignk
  refine ⟨applyOrderingsFrom s 0 (insertAt newOrd.toNat n0 ((sortByOrdering (childrenOf s n0.parent_node_id)).eraseIdx pa)), rfl, ?_, ?_, ?_⟩
  · rw [happly, findByPk_map _ hFid, hfind]
    rw [Option.map_some']
    rw [hassignk]
    rw [zero_add, hkcast]
  · rw [happly, childrenOf_map _ (fun m _ => hFpar m)]
    refine (List.Perm.map _ (List.Perm.map _ hl2sg.symm)).trans ?_
    rw [map_assign_ord _ hids2, hl2len]
  · intro a ha b hb haid hbid hab a2 b2 ha2 hb2
    have haq : a ∈ sortByOrdering (childrenOf s n0.parent_node_id) :=
      ((sortByOrdering_perm _).mem_iff).mpr ha
    have hbq : b ∈ sortByOrdering (childrenOf s n0.parent_node_id) :=
      ((sortByOrdering_perm _).mem_iff).mpr hb
    obtain ⟨ja, hja, hgeta, horda⟩ := pos_of_map_rangeInt hmap haq
    obtain ⟨jb, hjb, hgetb, hordb⟩ := pos_of_map_rangeInt hmap hbq
    have hn0id : n0.id = i := findByPk_some_id hfind
    have hann0 : a ≠ n0 := by
      intro he
      apply haid
      rw [he, hn0id]
    have hbnn0 : b ≠ n0 := by
      intro he
      apply hbid
      rw [he, hn0id]
    have hane : ja ≠ pa := by
      intro he
      apply hann0
      rw [← hgeta]
      simp only [he]
      exact hget
    have hbne : jb ≠ pa := by
      intro he
      apply hbnn0
      rw [← hgetb]
      simp only [he]
      exact hget
    have hjab : ja < jb := by
      rw [horda, hordb] at hab
      exact_mod_cast hab
    obtain ⟨hba, hgeta2⟩ := l2_getElem_newPos
      (sortByOrdering (childrenOf s n0.parent_node_id)) n0 pa newOrd.toNat
      hpa hkle ja hja hane
    obtain ⟨hbb, hgetb2⟩ := l2_getElem_newPos
      (sortByOrdering (childrenOf s n0.parent_node_id)) n0 pa newOrd.toNat
      hpa hkle jb hjb hbne
    have has : a ∈ s := (mem_childrenOf.mp ha).1
    have hbs : b ∈ s := (mem_childrenOf.mp hb).1
    rw [happly, findByPk_map _ hFid] at ha2 hb2
    have hafind : findByPk s a.id = some a := findByPk_of_mem hnd has
    have hbfind : findByPk s b.id = some b := findByPk_of_mem hnd hbs
    rw [hafind, Option.map_some'] at ha2
    rw [hbfind, Option.map_some'] at hb2
    have hassa := assignIdx_getElem ((insertAt newOrd.toNat n0 ((sortByOrdering (childrenOf s n0.parent_node_id)).eraseIdx pa)).map (fun c => c.id)) (newPos pa newOrd.toNat ja)
      (by rw [List.length_map]; exact hba) 0 hids2
    have hassb := assignIdx_getElem ((insertAt newOrd.toNat n0 ((sortByOrdering (childrenOf s n0.parent_node_id)).eraseIdx pa)).map (fun c => c.id)) (newPos pa newOrd.toNat jb)
      (by rw [List.length_map]; exact hbb) 0 hids2
    simp only [List.getElem_map] at hassa hassb
    rw [hgeta2, hgeta] at hassa
    rw [hgetb2, hgetb] at hassb
    rw [hassa] at ha2
    rw [hassb] at hb2
    have ha2v := (Option.some.inj ha2).symm
    have hb2v := (Option.some.inj hb2).symm
    rw [ha2v, hb2v]
    show (0 : Int) + (newPos pa newOrd.toNat ja : Int) <
      (0 : Int) + (newPos pa newOrd.toNat jb : Int)
    rw [zero_add, zero_add]
    exact_mod_cast newPos_strictMono hane hbne hjab

/-- Witness for C2 at the spec scenario: with root children A(2, ordering
0) and B(3, ordering 1), reordering node 2 to position 1 yields a store
in which B carries ordering 0 and A carries ordering 1. -/
theorem reorderNode_spec_witness :
    ∃ s2, reorderNode demoTwo 2 1 = Except.ok s2 ∧
      findByPk s2 2 = some { nodeA with ordering := 1 } ∧
      ((childrenOf s2 nodeA.parent_node_id).map (fun m => m.ordering)).Perm
        (rangeInt (childrenOf demoTwo nodeA.parent_node_id).length) ∧
      (∀ a, a ∈ childrenOf demoTwo nodeA.parent_node_id →
        ∀ b, b ∈ childrenOf demoTwo nodeA.parent_node_id →
        a.id ≠ 2 → b.id ≠ 2 → a.ordering < b.ordering →
        ∀ a2 b2, findByPk s2 a.id = some a2 → findByPk s2 b.id = some b2 →
          a2.ordering < b2.ordering) :=
  reorderNode_spec demoTwo 2 1 nodeA (by decide) (by decide) (by decide)
    (by decide) (by decide)

theorem ancOk_mono (s : Store) : ∀ (f g : Nat) (op : Option Nat),
    ancOk s f op = true → f ≤ g → ancOk s g op = true := by
  intro f
  induction f with
  | zero =>
    intro g op h hle
    cases op with
    | none => simp [ancOk]
    | some p => simp [ancOk] at h
  | succ f ih =>
    intro g op h hle
    cases op with
    | none => simp [ancOk]
    | some p =>
      cases g with
      | zero => omega
      | succ g =>
        cases hm : findByPk s p with
        | none => simp [ancOk, hm] at h
        | some m =>
          simp only [ancOk, hm] at h ⊢
          exact ih g m.parent_node_id h (Nat.le_of_succ_le_succ hle)

theorem chain_sat (s : Store) : ∀ (g f : Nat) (op : Option Nat),
    ancOk s g op = true → g ≤ f → chainFrom s f op = chainFrom s g op := by
  intro g
  induction g with
  | zero =>
    intro f op h hle
    cases op with
    | none => simp [chainFrom]
    | some p => simp [ancOk] at h
  | succ g ih =>
    intro f op h hle
    cases op with
    | none => simp [chainFrom]
    | some p =>
      cases hm : findByPk s p with
      | none => simp [ancOk, hm] at h
      | some m =>
        simp only [ancOk, hm] at h
        cases f with
        | zero => omega
        | succ f =>
          simp only [chainFrom, hm]
          rw [ih f m.parent_node_id h (Nat.le_of_succ_le_succ hle)]

theorem chain_mem_exists (s : Store) : ∀ (f : Nat) (op : Option Nat),
    ancOk s f op = true → ∀ y ∈ chainFrom s f op, ∃ ny, findByPk s y = some ny := by
  intro f
  induction f with
  | zero =>
    intro op h y hy
    cases op with
    | none => simp [chainFrom] at hy
    | some p => simp [ancOk] at h
  | succ f ih =>
    intro op h y hy
    cases op with
    | none => simp [chainFrom] at hy
    | some p =>
      cases hm : findByPk s p with
      | none => simp [ancOk, hm] at h
      | some m =>
        simp only [ancOk, hm] at h
        simp only [chainFrom, hm] at hy
        rcases List.mem_cons.mp hy with rfl | hy2
        · exact ⟨m, hm⟩
        · exact ih m.parent_node_id h y hy2

theorem chain_suffix (s : Store) : ∀ (f : Nat) (op : Option Nat) (y : Nat),
    ancOk s f op = true → y ∈ chainFrom s f op →
    ∃ ny, findByPk s y = some ny ∧ ∃ g, g < f ∧ ancOk s g ny.parent_node_id = true ∧
      ∀ z ∈ chainFrom s g ny.parent_node_id, z ∈ chainFrom s f op := by
  intro f
  induction f with
  | zero =>
    intro op y h hy
    cases op with
    | none => simp [chainFrom] at hy
    | some p => simp [ancOk] at h
  | succ f ih =>
    intro op y h hy
    cases op with
    | none => simp [chainFrom] at hy
    | some p =>
      cases hm : findByPk s p with
      | none => simp [ancOk, hm] at h
      | some m =>
        simp only [ancOk, hm] at h
        simp only [chainFrom, hm] at hy
        rcases List.mem_cons.mp hy with rfl | hy2
        · refine ⟨m, hm, f, Nat.lt_succ_self f, h, ?_⟩
          intro z hz
          simp only [chainFrom, hm]
          exact List.mem_cons_of_mem y hz
        · obtain ⟨ny, hfind, g, hgf, hanc, hsub⟩ := ih m.parent_node_id y h hy2
          refine ⟨ny, hfind, g, Nat.lt_succ_of_lt hgf, hanc, ?_⟩
          intro z hz
          simp only [chainFrom, hm]
          exact List.mem_cons_of_mem p (hsub z hz)

theorem chain_no_selfloop (s : Store) (f : Nat) : ∀ (y : Nat) (ny : Node),
    findByPk s y = some ny → ancOk s f ny.parent_node_id = true →
    y ∉ chainFrom s f ny.parent_node_id := by
  induction f using Nat.strong_induction_on with
  | _ f ih =>
    intro y ny hfind hanc hy
    obtain ⟨ny2, hfind2, g, hgf, hanc2, hsub⟩ :=
      chain_suffix s f ny.parent_node_id y hanc hy
    have hee : ny2 = ny := by
      rw [hfind] at hfind2
      exact (Option.some.inj hfind2).symm
    subst hee
    have hchain_eq : chainFrom s f ny2.parent_node_id = chainFrom s g ny2.parent_node_id :=
      chain_sat s g f ny2.parent_node_id hanc2 (Nat.le_of_lt hgf)
    rw [hchain_eq] at hy
    exact ih g hgf y ny2 hfind hanc2 hy

theorem isDescendant_false (s : Store) : ∀ (f : Nat) (op : Option Nat) (y : Nat),
    ancOk s f op = true → y ∉ chainFrom s f op → isDescendant s f op y = some false := by
  intro f
  induction f with
  | zero =>
    intro op y h hy
    cases op with
    | none => rfl
    | some p => simp [ancOk] at h
  | succ f ih =>
    intro op y h hy
    cases op with
    | none => rfl
    | some p =>
      cases hm : findByPk s p with
      | none => simp [ancOk, hm] at h
      | some m =>
        simp only [ancOk, hm] at h
        simp only [chainFrom, hm] at hy
        have hpy : ¬ p = y := by
          intro he
          apply hy
          rw [he]
          exact List.mem_cons_self y _
        simp only [isDescendant, hm, if_neg hpy]
        exact ih m.parent_node_id y h (fun hz => hy (List.mem_cons_of_mem p hz))

theorem mem_rangeInt {x : Int} {n : Nat} :
    x ∈ rangeInt n ↔ ∃ j : Nat, j < n ∧ x = (j : Int) := by
  unfold rangeInt
  rw [List.mem_map]
  constructor
  · rintro ⟨j, hj, hx⟩
    exact ⟨j, List.mem_range.mp hj, hx.symm⟩
  · rintro ⟨j, hj, hx⟩
    exact ⟨j, List.mem_range.mpr hj, hx.symm⟩

/-- C10: moving a non-root node to its existing parent succeeds (in a
well-formed tree the ancestor walk from the parent never meets the node)
and, because the child count is queried while the row is still recorded
under that parent, assigns ordering equal to the sibling count k
including the node itself; afterwards the sibling orderings are the old
dense set 0..k-1 with the node's old value replaced by k, so the group
is no longer dense. -/
theorem moveNode_same_parent (s : Store) (i pp : Nat) (n0 pn : Node)
    (hWF : WF s)
    (hfind : findByPk s i = some n0)
    (hpar : n0.parent_node_id = some pp)
    (hppfind : findByPk s pp = some pn)
    (hroot : i ≠ 1)
    (hdense : ((childrenOf s (some pp)).map (fun m => m.ordering)).Perm
      (rangeInt (childrenOf s (some pp)).length)) :
    moveNode (s.length + 1) s i pp =
      Except.ok (updateById s i (moveUpd pp ((childrenOf s (some pp)).length : Int))) ∧
    findByPk (updateById s i (moveUpd pp ((childrenOf s (some pp)).length : Int))) i =
      some { n0 with parent_node_id := some pp,
                     ordering := ((childrenOf s (some pp)).length : Int) } ∧
    ((childrenOf (updateById s i (moveUpd pp ((childrenOf s (some pp)).length : Int)))
        (some pp)).map (fun m => m.ordering)).Perm
      (((childrenOf s (some pp)).length : Int) ::
        ((rangeInt (childrenOf s (some pp)).length).erase n0.ordering)) ∧
    ¬ ((childrenOf (updateById s i (moveUpd pp ((childrenOf s (some pp)).length : Int)))
        (some pp)).map (fun m => m.ordering)).Perm
      (rangeInt (childrenOf (updateById s i (moveUpd pp
        ((childrenOf s (some pp)).length : Int))) (some pp)).length) := by
  obtain ⟨hnd, hanc⟩ := hWF
  have hn0id : n0.id = i := findByPk_some_id hfind
  have hpn_mem : pn ∈ s := findByPk_mem hppfind
  have hancpp : ancOk s (s.length + 1) (some pp) = true := by
    simp only [ancOk, hppfind]
    exact hanc pn hpn_mem
  have hancn0 : ancOk s (s.length + 1) n0.parent_node_id = true := by
    rw [hpar]
    exact hancpp
  have hnotin : i ∉ chainFrom s (s.length + 1) (some pp) := by
    rw [← hpar]
    exact chain_no_selfloop s (s.length + 1) i n0 hfind hancn0
  have hfalse : isDescendant s (s.length + 1) (some pp) i = some false :=
    isDescendant_false s (s.length + 1) (some pp) i hancpp hnotin
  have hn0s : n0 ∈ s := findByPk_mem hfind
  have hn0sg : n0 ∈ childrenOf s (some pp) := mem_childrenOf.mpr ⟨hn0s, hpar⟩
  have hsnd : s.Nodup := List.Nodup.of_map (fun m => m.id) hnd
  have hsgnd : (childrenOf s (some pp)).Nodup :=
    List.Nodup.sublist (childrenOf_sublist s (some pp)) hsnd
  have hg : ∀ m ∈ s, ((fun m => if m.id = i
      then moveUpd pp ((childrenOf s (some pp)).length : Int) m else m) m).parent_node_id
      = m.parent_node_id := by
    intro m hm
    by_cases hid : m.id = i
    · have hmn : m = n0 := id_inj hnd hm hn0s (hid.trans hn0id.symm)
      subst hmn
      simp only [if_pos hn0id]
      show some pp = m.parent_node_id
      rw [hpar]
    · simp only [if_neg hid]
  have hmap_ch : childrenOf (updateById s i
        (moveUpd pp ((childrenOf s (some pp)).length : Int))) (some pp)
      = (childrenOf s (some pp)).map (fun m => if m.id = i
        then moveUpd pp ((childrenOf s (some pp)).length : Int) m else m) := by
    unfold updateById
    exact childrenOf_map _ hg (some pp)
  have hperm1 : (childrenOf s (some pp)).Perm
      (n0 :: (childrenOf s (some pp)).erase n0) := List.perm_cons_erase hn0sg
  have herase_id : ∀ m ∈ (childrenOf s (some pp)).erase n0,
      (fun m => if m.id = i
        then moveUpd pp ((childrenOf s (some pp)).length : Int) m else m) m = m := by
    intro m hm
    have hm2 := (hsgnd.mem_erase_iff).mp hm
    have hmid : ¬ m.id = i := by
      intro he
      exact hm2.1 (id_inj hnd ((mem_childrenOf.mp hm2.2).1) hn0s (he.trans hn0id.symm))
    simp only [if_neg hmid]
  have hmap_erase : ((childrenOf s (some pp)).erase n0).map (fun m => if m.id = i
      then moveUpd pp ((childrenOf s (some pp)).length : Int) m else m)
      = (childrenOf s (some pp)).erase n0 := by
    rw [List.map_congr_left herase_id]
    exact List.map_id' _
  have h4 : ((n0 :: (childrenOf s (some pp)).erase n0).map (fun m => if m.id = i
      then moveUpd pp ((childrenOf s (some pp)).length : Int) m else m))
      = moveUpd pp ((childrenOf s (some pp)).length : Int) n0
        :: (childrenOf s (some pp)).erase n0 := by
    rw [List.map_cons, hmap_erase]
    simp only [hn0id, if_pos]
  have h5 : ((childrenOf s (some pp)).map (fun m => if m.id = i
      then moveUpd pp ((childrenOf s (some pp)).length : Int) m else m)).Perm
      (moveUpd pp ((childrenOf s (some pp)).length : Int) n0
        :: (childrenOf s (some pp)).erase n0) := by
    rw [← h4]
    exact hperm1.map _
  have h6 := h5.map (fun m => m.ordering)
  rw [List.map_cons] at h6
  have hordn0 : (moveUpd pp ((childrenOf s (some pp)).length : Int) n0).ordering
      = ((childrenOf s (some pp)).length : Int) := rfl
  rw [hordn0] at h6
  have h7 := hperm1.map (fun m => m.ordering)
  rw [List.map_cons] at h7
  have hmemord : n0.ordering ∈ rangeInt (childrenOf s (some pp)).length :=
    (hdense.mem_iff).mp (List.mem_map.mpr ⟨n0, hn0sg, rfl⟩)
  have h8 : (rangeInt (childrenOf s (some pp)).length).Perm
      (n0.ordering :: (rangeInt (childrenOf s (some pp)).length).erase n0.ordering) :=
    List.perm_cons_erase hmemord
  have h9 : (((childrenOf s (some pp)).erase n0).map (fun m => m.ordering)).Perm
      ((rangeInt (childrenOf s (some pp)).length).erase n0.ordering) := by
    apply List.Perm.cons_inv
    exact (h7.symm.trans hdense).trans h8
  have hmain : ((childrenOf (updateById s i
        (moveUpd pp ((childrenOf s (some pp)).length : Int))) (some pp)).map
        (fun m => m.ordering)).Perm
      (((childrenOf s (some pp)).length : Int) ::
        ((rangeInt (childrenOf s (some pp)).length).erase n0.ordering)) := by
    rw [hmap_ch]
    exact h6.trans (h9.cons _)
  refine ⟨?_, ?_, hmain, ?_⟩
  · simp [moveNode, hfind, hppfind, hroot, hfalse]
  · exact findByPk_updateById_eq
      (moveUpd pp ((childrenOf s (some pp)).length : Int)) (fun m => rfl) hfind
  · intro hP
    have hlen2 : (childrenOf (updateById s i
        (moveUpd pp ((childrenOf s (some pp)).length : Int))) (some pp)).length
        = (childrenOf s (some pp)).length := by
      rw [hmap_ch, List.length_map]
    rw [hlen2] at hP
    have hmem : (((childrenOf s (some pp)).length : Int)) ∈
        rangeInt (childrenOf s (some pp)).length := by
      apply (hP.mem_iff).mp
      apply (hmain.mem_iff).mpr
      exact List.mem_cons_self _ _
    obtain ⟨j, hj, hje⟩ := mem_rangeInt.mp hmem
    have : j = (childrenOf s (some pp)).length := Int.ofNat_inj.mp hje.symm
    omega

/-- Witness for C10: in the two-child store, moving A(2) to its current
parent 1 succeeds and assigns ordering 2 (the sibling count including A);
the sibling orderings become 2 and 1, no longer the dense set 0..1. -/
theorem moveNode_same_parent_witness :
    moveNode 4 demoTwo 2 1 = Except.ok (updateById demoTwo 2 (moveUpd 1 2)) ∧
    findByPk (updateById demoTwo 2 (moveUpd 1 2)) 2 =
      some { nodeA with parent_node_id := some 1, ordering := 2 } ∧
    ((childrenOf (updateById demoTwo 2 (moveUpd 1 2)) (some 1)).map
      (fun m => m.ordering)).Perm ((2 : Int) :: ((rangeInt 2).erase nodeA.ordering)) ∧
    ¬ ((childrenOf (updateById demoTwo 2 (moveUpd 1 2)) (some 1)).map
      (fun m => m.ordering)).Perm
      (rangeInt (childrenOf (updateById demoTwo 2 (moveUpd 1 2)) (some 1)).length) :=
  moveNode_same_parent demoTwo 2 1 nodeA rootNode (by decide) (by decide) (by decide)
    (by decide) (by decide) (by decide)

theorem mem_chain_self (s : Store) (f : Nat) (x : Nat) : x ∈ chainFrom s f (some x) := by
  cases f <;> simp [chainFrom]

theorem ancOk_CF (s : Store) (hanc : ∀ m ∈ s, ancOk s s.length m.parent_node_id = true)
    {m : Node} (hm : m ∈ s) : ancOk s (s.length + 1) m.parent_node_id = true :=
  ancOk_mono s s.length (s.length + 1) m.parent_node_id (hanc m hm) (Nat.le_succ _)

theorem chain_step_up (s : Store) (hnd : (s.map (fun m => m.id)).Nodup)
    {c : Node} (hc : c ∈ s) {x : Nat} (hcp : c.parent_node_id = some x)
    {op : Option Nat} (hancop : ancOk s (s.length + 1) op = true)
    (h : c.id ∈ chainFrom s (s.length + 1) op) :
    x ∈ chainFrom s (s.length + 1) op := by
  obtain ⟨nc2, hfind2, g, hgf, hanc2, hsub⟩ :=
    chain_suffix s (s.length + 1) op c.id hancop h
  have hcc : nc2 = c := by
    have := findByPk_of_mem hnd hc
    rw [this] at hfind2
    exact (Option.some.inj hfind2).symm
  subst hcc
  apply hsub
  rw [hcp]
  exact mem_chain_self s g x

theorem contains_iff_mem {l : List Nat} {a : Nat} : l.contains a = true ↔ a ∈ l :=
  List.elem_iff

theorem inSub_trans (s : Store) (hnd : (s.map (fun m => m.id)).Nodup)
    (hanc : ∀ m ∈ s, ancOk s s.length m.parent_node_id = true)
    {c : Node} (hc : c ∈ s) {x : Nat} (hcp : c.parent_node_id = some x)
    {m : Node} (hm : m ∈ s) (h : inSub s c.id m = true) : inSub s x m = true := by
  unfold inSub at h ⊢
  rw [Bool.or_eq_true] at h
  rw [Bool.or_eq_true]
  right
  rw [contains_iff_mem]
  rcases h with h | h
  · have hmc : m = c := id_inj hnd hm hc (eq_of_beq h)
    rw [hmc, hcp]
    exact mem_chain_self s _ x
  · rw [contains_iff_mem] at h
    exact chain_step_up s hnd hc hcp (ancOk_CF s hanc hm) h

theorem not_inSub_of_row (s : Store) (hnd : (s.map (fun m => m.id)).Nodup)
    (hanc : ∀ m ∈ s, ancOk s s.length m.parent_node_id = true)
    {c : Node} (hc : c ∈ s) {x : Nat} (hcp : c.parent_node_id = some x)
    {nx : Node} (hnx : nx ∈ s) (hnxid : nx.id = x) :
    inSub s c.id nx = false := by
  by_contra hcon
  rw [Bool.not_eq_false, inSub, Bool.or_eq_true] at hcon
  rcases hcon with h | h
  · have hcx : c.id = x := by
      rw [← eq_of_beq h, hnxid]
    have hloop : c.id ∈ chainFrom s (s.length + 1) c.parent_node_id := by
      rw [hcp, ← hcx]
      exact mem_chain_self s _ c.id
    exact chain_no_selfloop s (s.length + 1) c.id c (findByPk_of_mem hnd hc)
      (ancOk_CF s hanc hc) hloop
  · rw [contains_iff_mem] at h
    have hx2 : x ∈ chainFrom s (s.length + 1) nx.parent_node_id :=
      chain_step_up s hnd hc hcp (ancOk_CF s hanc hnx) h
    have hfx : findByPk s x = some nx := by
      rw [← hnxid]
      exact findByPk_of_mem hnd hnx
    exact chain_no_selfloop s (s.length + 1) x nx hfx (ancOk_CF s hanc hnx) hx2

theorem not_inSub_sibling (s : Store) (hnd : (s.map (fun m => m.id)).Nodup)
    (hanc : ∀ m ∈ s, ancOk s s.length m.parent_node_id = true)
    {c c2 : Node} (hc : c ∈ s) (hc2 : c2 ∈ s) {x : Nat}
    (hcp : c.parent_node_id = some x) (hc2p : c2.parent_node_id = some x)
    (hne : c2 ≠ c) : inSub s c.id c2 = false := by
  by_contra hcon
  rw [Bool.not_eq_false, inSub, Bool.or_eq_true] at hcon
  rcases hcon with h | h
  · exact hne (id_inj hnd hc2 hc (eq_of_beq h))
  · rw [contains_iff_mem, hc2p] at h
    -- decompose the chain from x one step
    have hancx : ancOk s (s.length + 1) (some x) = true := by
      rw [← hc2p]
      exact ancOk_CF s hanc hc2
    obtain ⟨nx, hfx⟩ : ∃ nx, findByPk s x = some nx := by
      cases hm : findByPk s x with
      | none => simp [ancOk, hm] at hancx
      | some nx => exact ⟨nx, rfl⟩
    have hnx_mem : nx ∈ s := findByPk_mem hfx
    have hchain : chainFrom s (s.length + 1) (some x)
        = x :: chainFrom s s.length nx.parent_node_id := by
      simp [chainFrom, hfx]
    rw [hchain] at h
    rcases List.mem_cons.mp h with hcx | h2
    · have hloop : c.id ∈ chainFrom s (s.length + 1) c.parent_node_id := by
        rw [hcp, ← hcx]
        exact mem_chain_self s _ c.id
      exact chain_no_selfloop s (s.length + 1) c.id c (findByPk_of_mem hnd hc)
        (ancOk_CF s hanc hc) hloop
    · have hsat : chainFrom s (s.length + 1) nx.parent_node_id
          = chainFrom s s.length nx.parent_node_id :=
        chain_sat s s.length (s.length + 1) nx.parent_node_id (hanc nx hnx_mem)
          (Nat.le_succ _)
      rw [← hsat] at h2
      have hx2 : x ∈ chainFrom s (s.length + 1) nx.parent_node_id :=
        chain_step_up s hnd hc hcp (ancOk_CF s hanc hnx_mem) h2
      exact chain_no_selfloop s (s.length + 1) x nx hfx (ancOk_CF s hanc hnx_mem) hx2

theorem countP_lt_of_witness {l : List Node} {p q : Node → Bool}
    (hpq : ∀ m ∈ l, p m = true → q m = true) {a : Node} (ha : a ∈ l)
    (hpa : p a = false) (hqa : q a = true) : l.countP p < l.countP q := by
  have hperm := List.perm_cons_erase ha
  rw [hperm.countP_eq p, hperm.countP_eq q]
  rw [List.countP_cons, List.countP_cons, hpa, hqa]
  rw [if_neg (by simp), if_pos rfl]
  have hle : (l.erase a).countP p ≤ (l.erase a).countP q :=
    List.countP_mono_left (fun m hm hp => hpq m (List.mem_of_mem_erase hm) hp)
  omega

theorem chain_path (s : Store) : ∀ (f : Nat) (op : Option Nat) (x : Nat),
    ancOk s f op = true → x ∈ chainFrom s f op →
    op = some x ∨ ∃ cid ∈ chainFrom s f op, ∃ c2, findByPk s cid = some c2 ∧
      c2.parent_node_id = some x := by
  intro f
  induction f with
  | zero =>
    intro op x h hx
    cases op with
    | none => simp [chainFrom] at hx
    | some p => simp [ancOk] at h
  | succ f ih =>
    intro op x h hx
    cases op with
    | none => simp [chainFrom] at hx
    | some p =>
      cases hm : findByPk s p with
      | none => simp [ancOk, hm] at h
      | some m =>
        simp only [ancOk, hm] at h
        simp only [chainFrom, hm] at hx
        rcases List.mem_cons.mp hx with rfl | hx2
        · exact Or.inl rfl
        · rcases ih m.parent_node_id x h hx2 with hpx | ⟨cid, hcid, c2, hf2, hp2⟩
          · refine Or.inr ⟨p, ?_, m, hm, hpx⟩
            simp only [chainFrom, hm]
            exact List.mem_cons_self p _
          · refine Or.inr ⟨cid, ?_, c2, hf2, hp2⟩
            simp only [chainFrom, hm]
            exact List.mem_cons_of_mem p hcid

theorem chain_trans (s : Store) (hnd : (s.map (fun m => m.id)).Nodup)
    {mp : Node} (hmp : mp ∈ s) {op : Option Nat}
    (hancop : ancOk s (s.length + 1) op = true)
    (hp : mp.id ∈ chainFrom s (s.length + 1) op)
    {z : Nat} (hz : z ∈ chainFrom s (s.length + 1) mp.parent_node_id) :
    z ∈ chainFrom s (s.length + 1) op := by
  obtain ⟨np, hfind, g, hgf, hancg, hsubs⟩ :=
    chain_suffix s (s.length + 1) op mp.id hancop hp
  have hee : np = mp := by
    have h2 := findByPk_of_mem hnd hmp
    rw [h2] at hfind
    exact (Option.some.inj hfind).symm
  subst hee
  apply hsubs
  rw [chain_sat s g (s.length + 1) np.parent_node_id hancg (Nat.le_of_lt hgf)] at hz
  exact hz

theorem delFold_spec (s : Store) (hnd : (s.map (fun m => m.id)).Nodup)
    (hanc : ∀ m ∈ s, ancOk s s.length m.parent_node_id = true)
    (fuel : Nat) (x : Nat)
    (hrec : ∀ (acc2 : Store) (y : Nat), acc2.Sublist s → upClosed s acc2 →
      ((∃ ny ∈ acc2, ny.id = y) ∨ (∀ m ∈ s, ¬ m.id = y)) →
      acc2.countP (fun m => inSub s y m) < fuel →
      deleteRec fuel acc2 y = some (acc2.filter (fun m => !(inSub s y m)))) :
    ∀ (cs : List Node) (acc : Store),
    (∀ c ∈ cs, c ∈ acc ∧ c.parent_node_id = some x) →
    cs.Nodup →
    acc.Sublist s → upClosed s acc →
    (∀ c ∈ cs, acc.countP (fun m => inSub s c.id m) < fuel) →
    delFold (fun a j => deleteRec fuel a j) cs acc
      = some (acc.filter (fun m => !(cs.any (fun c => inSub s c.id m)))) := by
  intro cs
  induction cs with
  | nil =>
    intro acc _ _ _ _ _
    simp [delFold]
  | cons c cs ih =>
    intro acc hcs hnodup hsub hUC hfuel
    have hc := hcs c (List.mem_cons_self c cs)
    have hcs_s : c ∈ s := hsub.subset hc.1
    have hstep := hrec acc c.id hsub hUC (Or.inl ⟨c, hc.1, rfl⟩)
      (hfuel c (List.mem_cons_self c cs))
    simp only [delFold, hstep]
    have hnodup2 := List.nodup_cons.mp hnodup
    have hsub2 : (acc.filter (fun m => !(inSub s c.id m))).Sublist s :=
      (List.filter_sublist acc).trans hsub
    have hUC2 : upClosed s (acc.filter (fun m => !(inSub s c.id m))) := by
      intro m hm p hp
      have hm2 := List.mem_filter.mp hm
      obtain ⟨mp, hmp_acc, hmp_id⟩ := hUC m hm2.1 p hp
      refine ⟨mp, ?_, hmp_id⟩
      apply List.mem_filter.mpr
      refine ⟨hmp_acc, ?_⟩
      cases hin : inSub s c.id mp with
      | false => rfl
      | true =>
        exfalso
        have hm_s : m ∈ s := hsub.subset hm2.1
        have hmp_s : mp ∈ s := hsub.subset hmp_acc
        have hanc_m : ancOk s (s.length + 1) m.parent_node_id = true :=
          ancOk_CF s hanc hm_s
        have hc_in_m : inSub s c.id m = true := by
          rw [inSub, Bool.or_eq_true]
          right
          rw [contains_iff_mem]
          rw [inSub, Bool.or_eq_true] at hin
          rcases hin with hin | hin
          · rw [← eq_of_beq hin, hmp_id]
            exact hp
          · rw [contains_iff_mem] at hin
            apply chain_trans s hnd hmp_s hanc_m ?_ hin
            rw [hmp_id]
            exact hp
        have hfalse2 := hm2.2
        rw [hc_in_m] at hfalse2
        simp at hfalse2
    have hfuel2 : ∀ c2 ∈ cs, (acc.filter (fun m => !(inSub s c.id m))).countP
        (fun m => inSub s c2.id m) < fuel := by
      intro c2 hc2
      exact Nat.lt_of_le_of_lt
        (List.Sublist.countP_le _ (List.filter_sublist acc))
        (hfuel c2 (List.mem_cons_of_mem c hc2))
    have hcs2 : ∀ c2 ∈ cs, c2 ∈ acc.filter (fun m => !(inSub s c.id m)) ∧
        c2.parent_node_id = some x := by
      intro c2 hc2
      have hc2m := hcs c2 (List.mem_cons_of_mem c hc2)
      refine ⟨?_, hc2m.2⟩
      apply List.mem_filter.mpr
      refine ⟨hc2m.1, ?_⟩
      have hne : c2 ≠ c := by
        intro he
        exact hnodup2.1 (he ▸ hc2)
      rw [not_inSub_sibling s hnd hanc hcs_s (hsub.subset hc2m.1) hc.2 hc2m.2 hne]
      rfl
    rw [ih (acc.filter (fun m => !(inSub s c.id m))) hcs2 hnodup2.2 hsub2 hUC2 hfuel2]
    rw [List.filter_filter]
    congr 1
    apply List.filter_congr
    intro m _
    simp only [List.any_cons, Bool.not_or]
    rw [Bool.and_comm]

theorem deleteRec_spec (s : Store) (hnd : (s.map (fun m => m.id)).Nodup)
    (hanc : ∀ m ∈ s, ancOk s s.length m.parent_node_id = true) :
    ∀ (fuel : Nat) (acc : Store) (x : Nat),
    acc.Sublist s → upClosed s acc →
    ((∃ nx ∈ acc, nx.id = x) ∨ (∀ m ∈ s, ¬ m.id = x)) →
    acc.countP (fun m => inSub s x m) < fuel →
    deleteRec fuel acc x = some (acc.filter (fun m => !(inSub s x m))) := by
  intro fuel
  induction fuel using Nat.strong_induction_on with
  | _ fuel ih =>
    intro acc x hsub hUC hx hfuel
    cases fuel with
    | zero => omega
    | succ f =>
      rcases hx with ⟨nx, hnx_acc, hnx_id⟩ | hout
      · -- x is carried by a row of acc
        have haccnd : acc.Nodup := List.Nodup.sublist hsub (List.Nodup.of_map _ hnd)
        have hcsnd : (childrenOf acc (some x)).Nodup :=
          List.Nodup.sublist (childrenOf_sublist acc _) haccnd
        have hcsmem : ∀ c ∈ childrenOf acc (some x),
            c ∈ acc ∧ c.parent_node_id = some x := fun c hc => mem_childrenOf.mp hc
        have hnx_s : nx ∈ s := hsub.subset hnx_acc
        have hqa : inSub s x nx = true := by
          rw [inSub, Bool.or_eq_true]
          left
          exact beq_iff_eq.mpr hnx_id
        have hfuelc : ∀ c ∈ childrenOf acc (some x),
            acc.countP (fun m => inSub s c.id m) < f := by
          intro c hc
          obtain ⟨hcacc, hcp⟩ := mem_childrenOf.mp hc
          have hcs : c ∈ s := hsub.subset hcacc
          have hlt := countP_lt_of_witness
            (fun m hm h => inSub_trans s hnd hanc hcs hcp (hsub.subset hm) h)
            hnx_acc
            (not_inSub_of_row s hnd hanc hcs hcp hnx_s hnx_id)
            hqa
          have hle : acc.countP (fun m => inSub s x m) ≤ f := Nat.lt_succ_iff.mp hfuel
          exact Nat.lt_of_lt_of_le hlt hle
        have hinner := delFold_spec s hnd hanc f x
          (fun acc2 y h1 h2 h3 h4 => ih f (Nat.lt_succ_self f) acc2 y h1 h2 h3 h4)
          (childrenOf acc (some x)) acc hcsmem hcsnd hsub hUC hfuelc
        simp only [deleteRec, hinner]
        congr 1
        rw [List.filter_filter]
        apply List.filter_congr
        intro m hm
        have hm_s : m ∈ s := hsub.subset hm
        have hPW : inSub s x m =
            ((m.id == x) || ((childrenOf acc (some x)).any (fun c => inSub s c.id m))) := by
          apply Bool.eq_iff_iff.mpr
          constructor
          · intro h
            rw [inSub, Bool.or_eq_true] at h
            rw [Bool.or_eq_true]
            rcases h with h | h
            · exact Or.inl h
            · rw [contains_iff_mem] at h
              right
              rw [List.any_eq_true]
              rcases chain_path s (s.length + 1) m.parent_node_id x
                (ancOk_CF s hanc hm_s) h with hpx | ⟨cid, hcid, c2, hf2, hp2⟩
              · refine ⟨m, mem_childrenOf.mpr ⟨hm, hpx⟩, ?_⟩
                rw [inSub, Bool.or_eq_true]
                left
                exact beq_self_eq_true m.id
              · obtain ⟨mp, hmp_acc, hmp_id⟩ := hUC m hm cid hcid
                have hmpc2 : mp = c2 := id_inj hnd (hsub.subset hmp_acc)
                  (findByPk_mem hf2) (hmp_id.trans (findByPk_some_id hf2).symm)
                refine ⟨c2, mem_childrenOf.mpr ⟨hmpc2 ▸ hmp_acc, hp2⟩, ?_⟩
                rw [inSub, Bool.or_eq_true]
                right
                rw [contains_iff_mem, findByPk_some_id hf2]
                exact hcid
          · intro h
            rw [Bool.or_eq_true] at h
            rcases h with h | h
            · rw [inSub, Bool.or_eq_true]
              exact Or.inl h
            · rw [List.any_eq_true] at h
              obtain ⟨c, hc_cs, hc_in⟩ := h
              obtain ⟨hcacc, hcp⟩ := mem_childrenOf.mp hc_cs
              exact inSub_trans s hnd hanc (hsub.subset hcacc) hcp hm_s hc_in
        rw [hPW, Bool.not_or, Bool.and_comm]
      · -- no row of s carries x: there are no children and nothing matches
        have hch : childrenOf acc (some x) = [] := by
          rw [childrenOf, List.filter_eq_nil_iff]
          intro m hm hbeq
          have hmp : m.parent_node_id = some x := eq_of_beq hbeq
          have hms : m ∈ s := hsub.subset hm
          have hxc : x ∈ chainFrom s (s.length + 1) m.parent_node_id := by
            rw [hmp]
            exact mem_chain_self s _ x
          obtain ⟨ny, hfy⟩ := chain_mem_exists s (s.length + 1) m.parent_node_id
            (ancOk_CF s hanc hms) x hxc
          exact hout ny (findByPk_mem hfy) (findByPk_some_id hfy)
        simp only [deleteRec, hch, delFold]
        congr 1
        apply List.filter_congr
        intro m hm
        have hms : m ∈ s := hsub.subset hm
        have h1 : (m.id == x) = false := beq_eq_false_iff_ne.mpr (hout m hms)
        have h2 : inSub s x m = false := by
          rw [inSub, h1, Bool.false_or]
          cases hcon : (chainFrom s (s.length + 1) m.parent_node_id).contains x with
          | false => rfl
          | true =>
            exfalso
            rw [contains_iff_mem] at hcon
            obtain ⟨ny, hfy⟩ := chain_mem_exists s (s.length + 1) m.parent_node_id
              (ancOk_CF s hanc hms) x hcon
            exact hout ny (findByPk_mem hfy) (findByPk_some_id hfy)
        rw [h1, h2]

/-- C4: deleting an existing non-root node from a well-formed store
removes exactly the rows of its subtree (the node itself and every row
whose upward ancestor chain passes through it) and no other row;
afterwards looking up the node or any former descendant fails with
NotFound, while every row outside the deleted subtree is still found
unchanged. -/
theorem deleteNode_subtree_spec (s : Store) (i : Nat) (n0 : Node)
    (hWF : WF s) (hfind : findByPk s i = some n0) (hroot : i ≠ 1) :
    deleteNode (s.length + 1) s i = Except.ok (s.filter (fun m => !(inSub s i m))) ∧
    (∀ m ∈ s, inSub s i m = true →
      getNode (s.filter (fun m => !(inSub s i m))) m.id = Except.error Err.NotFound) ∧
    (∀ m ∈ s, inSub s i m = false →
      findByPk (s.filter (fun m => !(inSub s i m))) m.id = some m) := by
  obtain ⟨hnd, hanc⟩ := hWF
  have hUC : upClosed s s := by
    intro m hm p hp
    obtain ⟨np, hfp⟩ := chain_mem_exists s (s.length + 1) m.parent_node_id
      (ancOk_CF s hanc hm) p hp
    exact ⟨np, findByPk_mem hfp, findByPk_some_id hfp⟩
  have hdel := deleteRec_spec s hnd hanc (s.length + 1) s i (List.Sublist.refl s) hUC
    (Or.inl ⟨n0, findByPk_mem hfind, findByPk_some_id hfind⟩)
    (Nat.lt_succ_of_le (List.countP_le_length _))
  refine ⟨?_, ?_, ?_⟩
  · simp only [deleteNode, if_neg hroot, hdel]
  · intro m hm hin
    have hnone : findByPk (s.filter (fun m => !(inSub s i m))) m.id = none := by
      cases hf : findByPk (s.filter (fun m => !(inSub s i m))) m.id with
      | none => rfl
      | some w =>
        exfalso
        have hw2 := List.mem_filter.mp (findByPk_mem hf)
        have hwid : w.id = m.id := findByPk_some_id hf
        have hww : w = m := id_inj hnd hw2.1 hm hwid
        have hwp := hw2.2
        rw [hww, hin] at hwp
        simp at hwp
    simp [getNode, hnone]
  · intro m hm hin
    apply findByPk_of_mem
    · exact List.Nodup.sublist (List.Sublist.map _ (List.filter_sublist s)) hnd
    · apply List.mem_filter.mpr
      refine ⟨hm, ?_⟩
      rw [hin]
      rfl

/-- Witness for C4: in the store where A(2) has child C(4) and B(3) is a
sibling of A, deleting node 2 removes exactly A and C, leaving the root
and B; lookups of 2 and 4 then fail with NotFound while 1 and 3 are
unchanged. -/
theorem deleteNode_subtree_spec_witness :
    (deleteNode (demoDeep.length + 1) demoDeep 2 =
      Except.ok (demoDeep.filter (fun m => !(inSub demoDeep 2 m))) ∧
    (∀ m ∈ demoDeep, inSub demoDeep 2 m = true →
      getNode (demoDeep.filter (fun m => !(inSub demoDeep 2 m))) m.id =
        Except.error Err.NotFound) ∧
    (∀ m ∈ demoDeep, inSub demoDeep 2 m = false →
      findByPk (demoDeep.filter (fun m => !(inSub demoDeep 2 m))) m.id = some m)) ∧
    demoDeep.filter (fun m => !(inSub demoDeep 2 m)) = [rootNode, nodeB] :=
  ⟨deleteNode_subtree_spec demoDeep 2 nodeA (by decide) (by decide) (by decide),
    by decide⟩
